import Mathlib

/-
Verification development for the whisper_openvino repository.

The repository patches the Whisper text decoder so that attention key/value
projections are cached across autoregressive steps (functions save_to_cache,
attention_forward, block_forward, decoder_forward of the export notebook), and
wraps the exported OpenVINO graph in an adapter (OpenVINOTextDecoder,
OpenVINOInference of whisper_transcribe.ipynb).  This file is a shallow
embedding of that code: tensors are rank-3 arrays of rationals with explicit
shape fields, the attention cache is an insertion-ordered association list
(the semantics of a Python dict), and fallible tensor operations return
Except values raised exactly where the Python code would raise.
-/

namespace WhisperOV

/-- Errors surfaced synchronously by the embedded tensor operations.
shapeMismatch models the RuntimeError torch raises when tensor shapes
disagree (torch.cat with unequal non-cat dimensions, broadcast failure of an
elementwise op, matmul dimension mismatch); missingFeatures models the
AttributeError raised when the decoder dereferences the encoder-features
argument (xa.dtype) and no features were supplied; indexOutOfRange models the
IndexError of advanced indexing with an invalid index; missingKey models a
KeyError on a dict lookup. -/
inductive TorchError where
  | shapeMismatch
  | missingFeatures
  | indexOutOfRange
  | missingKey
deriving Repr, DecidableEq

/-- Rank-3 tensor (batch, sequence-position, feature) in row-major order,
the shape carried explicitly as in torch.  Entries are rationals: the claims
settled here do not depend on floating-point rounding. -/
structure Tensor where
  batch : Nat
  seq : Nat
  feat : Nat
  data : List ℚ
deriving Repr, DecidableEq

/-- Integer token tensor of shape (batch, seq), as fed to the decoder. -/
structure TokenTensor where
  batch : Nat
  seq : Nat
  data : List Int
deriving Repr, DecidableEq

/-- One batch entry of a tensor, as a flat list of seq*feat rationals. -/
def batchSlice (t : Tensor) (i : Nat) : List ℚ :=
  (t.data.drop (i * (t.seq * t.feat))).take (t.seq * t.feat)

/-- torch.cat([a, b], dim=1): concatenation along the sequence-position axis.
All dimensions other than the cat dimension must agree, otherwise torch
raises a RuntimeError. -/
def cat1 (a b : Tensor) : Except TorchError Tensor :=
  if a.batch = b.batch ∧ a.feat = b.feat then
    .ok { batch := a.batch, seq := a.seq + b.seq, feat := a.feat,
          data := ((List.range a.batch).map
            (fun i => batchSlice a i ++ batchSlice b i)).flatten }
  else .error .shapeMismatch

/-- The attention cache: a Python dict from module name to tensor, modelled
as an insertion-ordered association list (iteration order of a dict is
insertion order, which decoder_forward relies on when it reads the first
value to compute the offset). -/
abbrev KVCache := List (String × Tensor)

/-- Dict lookup: cache[k] if present. -/
def dictGet (c : KVCache) (k : String) : Option Tensor :=
  match c with
  | [] => none
  | (k', v) :: rest => if k' = k then some v else dictGet rest k

/-- Dict assignment cache[k] = v: updates the entry in place if the key is
present (keeping its position), otherwise appends a new entry at the end,
exactly the insertion-order semantics of a Python dict. -/
def dictSet (c : KVCache) (k : String) (v : Tensor) : KVCache :=
  match c with
  | [] => [(k, v)]
  | (k', v') :: rest => if k' = k then (k', v) :: rest else (k', v') :: dictSet rest k v

/-- Embedding of save_to_cache from the export notebook.  pes is the global
positional_embeddings_size (= model.decoder.positional_embedding.shape[0]).
Source:
  if module not in cache or output.shape[1] > positional_embeddings_size:
      cache[module] = output
  else:
      cache[module] = torch.cat([cache[module], output], dim=1).detach()
  return cache[module]
The .detach() is a no-op on values. -/
def save_to_cache (pes : Nat) (cache : KVCache) (module : String) (output : Tensor) :
    Except TorchError (KVCache × Tensor) :=
  match dictGet cache module with
  | none => .ok (dictSet cache module output, output)
  | some old =>
    if pes < output.seq then
      .ok (dictSet cache module output, output)
    else do
      let merged ← cat1 old output
      pure (dictSet cache module merged, merged)

/-- Elementwise tensor addition (the residual additions x + x0 of
block_forward).  torch broadcasts; in the decoder the two operands always
have identical shapes, and a disagreement raises. -/
def tadd (a b : Tensor) : Except TorchError Tensor :=
  if a.batch = b.batch ∧ a.seq = b.seq ∧ a.feat = b.feat then
    .ok { a with data := List.zipWith (· + ·) a.data b.data }
  else .error .shapeMismatch

/-- Entry (i, j, k) of a rank-3 tensor (0 outside the stored data). -/
def tGet (t : Tensor) (i j k : Nat) : ℚ :=
  t.data.getD ((i * t.seq + j) * t.feat + k) 0

/-- Entry (j, k) of a rank-2 matrix given as rows. -/
def mGet (m : List (List ℚ)) (j k : Nat) : ℚ :=
  (m.getD j []).getD k 0

/-- Broadcast addition of a rank-3 tensor and a rank-2 matrix, as in
token_embedding(x) + positional_embedding[offset : offset + n]: torch aligns
trailing dimensions, so the matrix's row count must equal the sequence length
(or either must be 1, the broadcast case that arises when the positional
slice is clamped to a single row), and likewise for the feature dimension;
any other disagreement raises a RuntimeError. -/
def addPos (t : Tensor) (m : List (List ℚ)) : Except TorchError Tensor :=
  let rows := m.length
  let cols := (m.headD []).length
  if (rows = t.seq ∨ rows = 1 ∨ t.seq = 1) ∧ (cols = t.feat ∨ cols = 1 ∨ t.feat = 1) then
    let s := max t.seq rows
    let f := max t.feat cols
    .ok { batch := t.batch, seq := s, feat := f,
          data := (List.range (t.batch * s * f)).map (fun n =>
            let i := n / (s * f)
            let r := n % (s * f)
            let j := r / f
            let k := r % f
            tGet t i (if t.seq = 1 then 0 else j) (if t.feat = 1 then 0 else k)
              + mGet m (if rows = 1 then 0 else j) (if cols = 1 then 0 else k)) }
  else .error .shapeMismatch

/-- Dot product of two feature rows. -/
def dotProd (xs ys : List ℚ) : ℚ := (List.zipWith (· * ·) xs ys).sum

/-- Row (of length feat) at flat row index r of a rank-3 tensor. -/
def rowOf (t : Tensor) (r : Nat) : List ℚ :=
  (t.data.drop (r * t.feat)).take t.feat

/-- x @ transpose(W): the final logits projection of decoder_forward,
multiplying (batch, seq, feat) by the transposed embedding weight
(vocab, feat).  The inner dimensions must agree. -/
def matmulT (t : Tensor) (w : List (List ℚ)) : Except TorchError Tensor :=
  if (w.headD []).length = t.feat then
    .ok { batch := t.batch, seq := t.seq, feat := w.length,
          data := ((List.range (t.batch * t.seq)).map
            (fun r => w.map (fun wr => dotProd (rowOf t r) wr))).flatten }
  else .error .shapeMismatch

/-- One attention module of the patched decoder.  The source's
attention_forward receives the module object as a parameter and calls its
query/key/value/out linear layers and its qkv_attention; those neural
primitives are kept as function parameters here, the cache routing around
them is the code under verification. -/
structure AttentionModule where
  query : Tensor → Tensor
  key : Tensor → Tensor
  value : Tensor → Tensor
  qkv_attention : Tensor → Tensor → Tensor → Option Tensor → Tensor × Tensor
  out : Tensor → Tensor

/-- Embedding of attention_forward from the export notebook, with the cache
threaded explicitly (Python mutates kv_cache in place).  Source:
  q = attention_module.query(x)
  if kv_cache is None or xa is None:
      k = attention_module.key(x if xa is None else xa)
      v = attention_module.value(x if xa is None else xa)
      if kv_cache is not None:
          k = save_to_cache(kv_cache, f'k_idx', k)
          v = save_to_cache(kv_cache, f'v_idx', v)
  else:
      k = kv_cache.get(f'k_idx', save_to_cache(kv_cache, f'k_idx', attention_module.key(xa)))
      v = kv_cache.get(f'v_idx', save_to_cache(kv_cache, f'v_idx', attention_module.value(xa)))
  wv, qk = attention_module.qkv_attention(q, k, v, mask)
  return attention_module.out(wv), kv_cache
Python evaluates the default argument of dict.get eagerly, so in the cross
branch the projection of xa is computed and stored by save_to_cache on every
call, before the lookup runs on the already-mutated dict; the embedding
reproduces that order. -/
def attention_forward (pes : Nat) (am : AttentionModule) (x : Tensor)
    (xa : Option Tensor) (mask : Option Tensor) (kv_cache : Option KVCache)
    (idx : String) : Except TorchError (Tensor × Option KVCache) :=
  let q := am.query x
  match kv_cache, xa with
  | none, none =>
      let (wv, _qk) := am.qkv_attention q (am.key x) (am.value x) mask
      .ok (am.out wv, none)
  | none, some a =>
      let (wv, _qk) := am.qkv_attention q (am.key a) (am.value a) mask
      .ok (am.out wv, none)
  | some c, none => do
      let (c1, k) ← save_to_cache pes c ("k_" ++ idx) (am.key x)
      let (c2, v) ← save_to_cache pes c1 ("v_" ++ idx) (am.value x)
      let (wv, _qk) := am.qkv_attention q k v mask
      pure (am.out wv, some c2)
  | some c, some a => do
      let (c1, kStored) ← save_to_cache pes c ("k_" ++ idx) (am.key a)
      let k := (dictGet c1 ("k_" ++ idx)).getD kStored
      let (c2, vStored) ← save_to_cache pes c1 ("v_" ++ idx) (am.value a)
      let v := (dictGet c2 ("v_" ++ idx)).getD vStored
      let (wv, _qk) := am.qkv_attention q k v mask
      pure (am.out wv, some c2)

/-- One residual block of the decoder, its sublayers as parameters exactly as
block_forward receives the block object. -/
structure ResidualBlock where
  attn : AttentionModule
  attn_ln : Tensor → Tensor
  cross_attn : Option AttentionModule
  cross_attn_ln : Tensor → Tensor
  mlp : Tensor → Tensor
  mlp_ln : Tensor → Tensor

/-- Embedding of block_forward.  Source:
  x0, kv_cache = residual_block.attn(residual_block.attn_ln(x), mask=mask,
                                     kv_cache=kv_cache, idx=f'idx a')
  x = x + x0
  if residual_block.cross_attn:
      x1, kv_cache = residual_block.cross_attn(residual_block.cross_attn_ln(x),
                                               xa, kv_cache=kv_cache, idx=f'idx c')
      x = x + x1
  x = x + residual_block.mlp(residual_block.mlp_ln(x))
  return x, kv_cache -/
def block_forward (pes : Nat) (rb : ResidualBlock) (x : Tensor)
    (xa : Option Tensor) (mask : Option Tensor) (kv_cache : Option KVCache)
    (idx : String) : Except TorchError (Tensor × Option KVCache) := do
  let (x0, kv1) ← attention_forward pes rb.attn (rb.attn_ln x) none mask kv_cache (idx ++ "a")
  let x1 ← tadd x x0
  let (x2, kv2) ←
    match rb.cross_attn with
    | some ca => do
        let (xc, kvc) ← attention_forward pes ca (rb.cross_attn_ln x1) xa none kv1 (idx ++ "c")
        let x2 ← tadd x1 xc
        pure (x2, kvc)
    | none => pure (x1, kv1)
  let x3 ← tadd x2 (rb.mlp (rb.mlp_ln x2))
  pure (x3, kv2)

/-- The patched text decoder: its embedding table, positional-embedding
matrix, causal mask, residual blocks and final layer norm, as decoder_forward
receives them on the decoder object. -/
structure TextDecoder where
  token_embedding : TokenTensor → Tensor
  token_embedding_weight : List (List ℚ)
  positional_embedding : List (List ℚ)
  mask : Option Tensor
  blocks : List ResidualBlock
  ln : Tensor → Tensor

/-- Python slice positional_embedding[offset : offset + len], clamped at the
end of the matrix exactly as Python slicing clamps. -/
def posSlice (pe : List (List ℚ)) (offset len : Nat) : List (List ℚ) :=
  (pe.drop offset).take len

/-- The loop `for block in decoder.blocks: x, kv_cache = block(x, xa,
mask=decoder.mask, kv_cache=kv_cache)` where each block was bound to its
enumerate index. -/
def run_blocks (pes : Nat) (blocks : List (Nat × ResidualBlock)) (x : Tensor)
    (xa : Tensor) (mask : Option Tensor) (kv : Option KVCache) :
    Except TorchError (Tensor × Option KVCache) :=
  match blocks with
  | [] => pure (x, kv)
  | (i, b) :: rest => do
      let (x', kv') ← block_forward pes b x (some xa) mask kv (toString i)
      run_blocks pes rest x' xa mask kv'

/-- Embedding of decoder_forward, the direct-execution backend's step
function.  Source:
  offset = next(iter(kv_cache.values())).shape[1] if kv_cache else 0
  x = decoder.token_embedding(x) + decoder.positional_embedding[offset: offset + x.shape[-1]]
  x = x.to(xa.dtype)
  for block in decoder.blocks:
      x, kv_cache = block(x, xa, mask=decoder.mask, kv_cache=kv_cache)
  x = decoder.ln(x)
  logits = (x @ torch.transpose(decoder.token_embedding.weight.to(x.dtype), 1, 0)).float()
  return logits, kv_cache
A None kv_cache and an empty dict are both falsy, so both give offset 0; the
line x.to(xa.dtype) dereferences xa and is the point where a missing
encoder-features argument raises. -/
def decoder_forward (pes : Nat) (dec : TextDecoder) (x : TokenTensor)
    (xa : Option Tensor) (kv_cache : Option KVCache) :
    Except TorchError (Tensor × Option KVCache) := do
  let offset : Nat :=
    match kv_cache with
    | some ((_, v) :: _) => v.seq
    | _ => 0
  let xE ← addPos (dec.token_embedding x) (posSlice dec.positional_embedding offset x.seq)
  let xa' ← match xa with
    | some a => pure a
    | none => Except.error TorchError.missingFeatures
  let (xF, kvF) ← run_blocks pes dec.blocks.enum xE xa' dec.mask kv_cache
  let logits ← matmulT (dec.ln xF) dec.token_embedding_weight
  pure (logits, kvF)

/-- One decoding step as driven by OpenVINOInference.logits: call the decoder
on the newly supplied tokens with the current cache and keep the updated
cache.  A call that passes a cache always gets one back, so the none branch
is unreachable. -/
def stepKV (pes : Nat) (dec : TextDecoder) (x : TokenTensor) (xa : Option Tensor)
    (cache : KVCache) : Except TorchError KVCache := do
  let (_, kv) ← decoder_forward pes dec x xa (some cache)
  match kv with
  | some c2 => pure c2
  | none => Except.error TorchError.missingKey

/-- A decoding run: successive step calls on one cache, each supplying its
batch of new tokens, the encoder features passed on every call as
OpenVINOInference.logits does. -/
def runSteps (pes : Nat) (dec : TextDecoder) (xa : Option Tensor)
    (cache : KVCache) (steps : List TokenTensor) : Except TorchError KVCache :=
  match steps with
  | [] => pure cache
  | s :: rest => do
      let c' ← stepKV pes dec s xa cache
      runSteps pes dec xa c' rest

/-- np.zeros((b, s, f), dtype=np.float32) as a rank-3 tensor. -/
def zerosT (b s f : Nat) : Tensor :=
  { batch := b, seq := s, feat := f, data := List.replicate (b * s * f) 0 }

/-- Embedding of OpenVINOTextDecoder.init_past_inputs.  The feed dictionary
reuses the cache representation (string-keyed tensors).  Source:
  beam_size = feed_dict['tokens'].shape[0]
  audio_len = feed_dict['audio_features'].shape[2]
  previous_seq_len = 0
  for name in self._input_names:
      if name in ['tokens', 'audio_features']:
          continue
      feed_dict[name] = Tensor(np.zeros((beam_size, previous_seq_len, audio_len),
                                        dtype=np.float32))
  return feed_dict
The missing-key branches model the KeyError the two dict subscripts would
raise; forward always places both keys first. -/
def init_past_inputs (input_names : List String) (feed : KVCache) :
    Except TorchError KVCache :=
  match dictGet feed "tokens", dictGet feed "audio_features" with
  | some tk, some af =>
      let beam_size := tk.batch
      let audio_len := af.feat
      .ok (input_names.foldl (fun fd name =>
        if name = "tokens" ∨ name = "audio_features" then fd
        else dictSet fd name (zerosT beam_size 0 audio_len)) feed)
  | _, _ => .error .missingKey

/-- Embedding of OpenVINOTextDecoder.preprocess_kv_cache_inputs.  Source:
  if not kv_cache:
      return self.init_past_inputs(feed_dict)
  for k, v in kv_cache.items():
      new_k = f'in_k'
      if new_k in self._input_names:
          feed_dict[new_k] = Tensor(v.numpy())
  return feed_dict
A None cache and an empty dict are both falsy. -/
def preprocess_kv_cache_inputs (input_names : List String) (feed : KVCache)
    (kv_cache : Option KVCache) : Except TorchError KVCache :=
  if (kv_cache.getD []).isEmpty then init_past_inputs input_names feed
  else .ok ((kv_cache.getD []).foldl (fun fd kv =>
    if ("in_" ++ kv.1) ∈ input_names then dictSet fd ("in_" ++ kv.1) kv.2 else fd) feed)

/-- Whether pat is a prefix of the character list. -/
def startsList : List Char → List Char → Bool
  | [], _ => true
  | _ :: _, [] => false
  | p :: ps, c :: cs => p = c && startsList ps cs

/-- Replace every non-overlapping occurrence of pat, scanning left to right:
the semantics of Python str.replace for a nonempty pattern (an empty pattern
is returned unchanged here; the adapter only replaces the literal "out_").
The fuel argument bounds the recursion; every step consumes at least one
character, so fuel = length of the scanned list is enough. -/
def replGo (pat rep : List Char) : Nat → List Char → List Char
  | _, [] => []
  | 0, l => l
  | Nat.succ fuel, c :: rest =>
    if pat ≠ [] ∧ startsList pat (c :: rest) then
      rep ++ replGo pat rep fuel ((c :: rest).drop pat.length)
    else c :: replGo pat rep fuel rest

/-- Python s.replace(pat, rep). -/
def pyReplace (s pat rep : String) : String :=
  ⟨replGo pat.data rep.data s.data.length s.data⟩

/-- Embedding of OpenVINOTextDecoder.postprocess_outputs over the engine's
result, given as a list of (port name, tensor) pairs; each exported port has
exactly one name, so the membership test `'logits' in output_t.get_names()`
is the equality test against that name.  Source:
  logits = None
  kv_cache = {}
  for output_t, out in outputs.items():
      if 'logits' in output_t.get_names():
          logits = torch.from_numpy(out)
      else:
          tensor_name = output_t.any_name
          kv_cache[tensor_name.replace('out_', '')] = torch.from_numpy(out)
  return logits, kv_cache -/
def postStep (acc : Option Tensor × KVCache) (p : String × Tensor) :
    Option Tensor × KVCache :=
  if p.1 = "logits" then (some p.2, acc.2)
  else (acc.1, dictSet acc.2 (pyReplace p.1 "out_" "") p.2)

def postprocess_outputs (outputs : List (String × Tensor)) : Option Tensor × KVCache :=
  outputs.foldl postStep (none, [])

/-- Embedding of OpenVINOTextDecoder.forward: build the feed dictionary with
the tokens and encoder features, multiplex the cache into flat engine inputs,
run the compiled graph (the opaque engine is a parameter) and demultiplex its
named outputs.  Source:
  feed_dict = {'tokens': Tensor(x.numpy()), 'audio_features': Tensor(xa.numpy())}
  feed_dict = (self.preprocess_kv_cache_inputs(feed_dict, kv_cache))
  res = self.compiled_model(feed_dict)
  return self.postprocess_outputs(res) -/
def ov_forward (engine : KVCache → Except TorchError (List (String × Tensor)))
    (input_names : List String) (x xa : Tensor) (kv_cache : Option KVCache) :
    Except TorchError (Option Tensor × KVCache) := do
  let feed : KVCache := [("tokens", x), ("audio_features", xa)]
  let feed' ← preprocess_kv_cache_inputs input_names feed kv_cache
  let res ← engine feed'
  pure (postprocess_outputs res)

/-- The cache-slot identifiers of the exported decoder, in the dict insertion
order of the tracing pass: the loaded model is whisper "small" with 12 text
layers, and each block inserts its self-attention key/value then its
cross-attention key/value (suffix "a" for self, "c" for cross). -/
def exportSlotNames : List String :=
  (List.range 12).flatMap (fun i =>
    ["k_" ++ toString i ++ "a", "v_" ++ toString i ++ "a",
     "k_" ++ toString i ++ "c", "v_" ++ toString i ++ "c"])

/-- Engine input name for a cache slot: f'in_k'. -/
def inName (s : String) : String := "in_" ++ s

/-- Engine output name for a cache slot: f'out_k'. -/
def outName (s : String) : String := "out_" ++ s

/-- The state of the OpenVINOInference wrapper: the cache it holds between
step calls. -/
structure OpenVINOInference where
  kv_cache : KVCache
deriving Repr, DecidableEq

/-- The empty cache the wrapper starts with (self.kv_cache = {} in
OpenVINOInference.__init__); this is the spec's initialize(). -/
def init_kv_cache : KVCache := []

/-- Embedding of OpenVINOInference.cleanup_caching: self.kv_cache = {}
rebinds the attribute to a fresh empty dict. -/
def cleanup_caching (_inf : OpenVINOInference) : OpenVINOInference :=
  { kv_cache := [] }

/-- torch advanced indexing tensor[source_indices] along the batch axis: the
result stacks the selected batch entries in order; an invalid index raises
IndexError (negative indices, unused here, are not modelled). -/
def tensorIndex (t : Tensor) (idx : List Nat) : Except TorchError Tensor :=
  if idx.all (· < t.batch) then
    .ok { batch := idx.length, seq := t.seq, feat := t.feat,
          data := (idx.map (batchSlice t)).flatten }
  else .error .indexOutOfRange

/-- Embedding of OpenVINOInference.rearrange_kv_cache.  Source:
  for module, tensor in self.kv_cache.items():
      self.kv_cache[module] = tensor[source_indices]
The in-place dict update keeps every key at its position with its tensor
re-indexed. -/
def rearrange_kv_cache (cache : KVCache) (source_indices : List Nat) :
    Except TorchError KVCache :=
  match cache with
  | [] => .ok []
  | (k, v) :: rest => do
      let v' ← tensorIndex v source_indices
      let rest' ← rearrange_kv_cache rest source_indices
      pure ((k, v') :: rest')

/-- The numpy dtypes that appear in the audio path. -/
inductive DType where
  | float32
  | float64
  | int16
  | int32
deriving Repr, DecidableEq

/-- A 1-D numpy array: a dtype tag and its samples (rationals; the resample
claims are about lengths, dtypes and the identity case, not rounding). -/
structure NPArray where
  dtype : DType
  samples : List ℚ
deriving Repr, DecidableEq

/-- np.linspace(a, b, n): n evenly spaced points including both endpoints. -/
def linspace (a b : ℚ) (n : Nat) : List ℚ :=
  if n = 0 then []
  else if n = 1 then [a]
  else (List.range n).map (fun i : Nat => a + (b - a) * (i : ℚ) / ((n : ℚ) - 1))

/-- Piecewise-linear interpolation through the given (x, y) points at x,
clamped at both ends: the semantics of np.interp for increasing xs. -/
def interpScan : List (ℚ × ℚ) → ℚ → ℚ
  | [], _ => 0
  | [(_, y1)], _ => y1
  | (x1, y1) :: (x2, y2) :: rest, x =>
    if x ≤ x1 then y1
    else if x ≤ x2 then
      if x2 = x1 then y2 else y1 + (y2 - y1) * (x - x1) / (x2 - x1)
    else interpScan ((x2, y2) :: rest) x

/-- Embedding of resample from whisper_transcribe.ipynb.  Source:
  if src_sample_rate == dst_sample_rate:
      return audio
  duration = audio.shape[0] / src_sample_rate
  resampled_data = np.zeros(shape=(int(duration * dst_sample_rate)), dtype=np.float32)
  x_old = np.linspace(0, duration, audio.shape[0], dtype=np.float32)
  x_new = np.linspace(0, duration, resampled_data.shape[0], dtype=np.float32)
  resampled_audio = np.interp(x_new, x_old, audio)
  return resampled_audio.astype(np.float32)
Python's int() truncates toward zero; sample rates are positive so this is
the floor.  The arithmetic is carried out over the rationals. -/
def resample (audio : NPArray) (src_sample_rate dst_sample_rate : ℚ) : NPArray :=
  if src_sample_rate = dst_sample_rate then audio
  else
    let duration : ℚ := (audio.samples.length : ℚ) / src_sample_rate
    let n : Nat := (duration * dst_sample_rate).floor.toNat
    let x_old := linspace 0 duration audio.samples.length
    let x_new := linspace 0 duration n
    { dtype := .float32,
      samples := x_new.map (interpScan (x_old.zip audio.samples)) }

/-! Association-list (Python dict) lemmas. -/

theorem dictGet_dictSet_self (c : KVCache) (k : String) (v : Tensor) :
    dictGet (dictSet c k v) k = some v := by
  induction c with
  | nil => simp [dictGet, dictSet]
  | cons hd tl ih =>
      obtain ⟨k', v'⟩ := hd
      by_cases h : k' = k <;> simp [dictGet, dictSet, h, ih]

theorem dictGet_dictSet_ne (c : KVCache) {k k' : String} (v : Tensor) (h : k' ≠ k) :
    dictGet (dictSet c k v) k' = dictGet c k' := by
  induction c with
  | nil => simp [dictGet, dictSet, Ne.symm h]
  | cons hd tl ih =>
      obtain ⟨k0, v0⟩ := hd
      by_cases h0 : k0 = k
      · subst h0
        simp [dictGet, dictSet, Ne.symm h]
      · by_cases h1 : k0 = k' <;> simp [dictGet, dictSet, h0, h1, ih, h]

theorem dictSet_ne_nil (c : KVCache) (k : String) (v : Tensor) :
    dictSet c k v ≠ [] := by
  cases c with
  | nil => simp [dictSet]
  | cons hd tl =>
      obtain ⟨k', v'⟩ := hd
      by_cases h : k' = k <;> simp [dictSet, h]

theorem dictSet_head_key (c : KVCache) (k : String) (v : Tensor) (hc : c ≠ []) :
    (dictSet c k v).head?.map Prod.fst = c.head?.map Prod.fst := by
  cases c with
  | nil => exact absurd rfl hc
  | cons hd tl =>
      obtain ⟨k', v'⟩ := hd
      by_cases h : k' = k <;> simp [dictSet, h]

theorem dictSet_nil_head (k : String) (v : Tensor) :
    (dictSet [] k v).head?.map Prod.fst = some k := by
  simp [dictSet]

theorem dictGet_of_head (c : KVCache) (k : String) (v : Tensor)
    (h : c.head? = some (k, v)) : dictGet c k = some v := by
  cases c with
  | nil => simp at h
  | cons hd tl =>
      simp at h
      subst h
      simp [dictGet]

/-! Slot-name lemmas: the cache keys built by the patched decoder are
pairwise distinct strings. -/

/-- Self-attention key slot of block i: f'k_ia'. -/
def selfK (i : Nat) : String := "k_" ++ (toString i ++ "a")

/-- Self-attention value slot of block i: f'v_ia'. -/
def selfV (i : Nat) : String := "v_" ++ (toString i ++ "a")

/-- Cross-attention key slot of block i: f'k_ic'. -/
def crossK (i : Nat) : String := "k_" ++ (toString i ++ "c")

/-- Cross-attention value slot of block i: f'v_ic'. -/
def crossV (i : Nat) : String := "v_" ++ (toString i ++ "c")

theorem string_data_inj {s t : String} (h : s.data = t.data) : s = t := by
  cases s; cases t; simp_all

theorem append_k_ne_v (s t : String) : ("k_" ++ s : String) ≠ "v_" ++ t := by
  intro h
  have h2 := congrArg String.data h
  simp [String.data_append] at h2

theorem append_left_cancel_2 {p s t : String} (h : (p ++ s : String) = p ++ t) : s = t := by
  have h2 := congrArg String.data h
  simp only [String.data_append] at h2
  exact string_data_inj (List.append_cancel_left h2)

theorem suffix_a_ne_c (s t : String) : (s ++ "a" : String) ≠ t ++ "c" := by
  intro h
  have h2 := congrArg String.data h
  simp only [String.data_append] at h2
  have ha : (s.data ++ "a".data).getLast? = some 'a' := List.getLast?_concat s.data
  have hc : (t.data ++ "c".data).getLast? = some 'c' := List.getLast?_concat t.data
  rw [h2, hc] at ha
  simp at ha

theorem suffix_cancel {s t u : String} (h : (s ++ u : String) = t ++ u) : s = t := by
  have h2 := congrArg String.data h
  simp only [String.data_append] at h2
  exact string_data_inj (List.append_cancel_right h2)

theorem selfK_inj {i j : Nat} (h : selfK i = selfK j) : toString i = toString j := by
  have h1 := append_left_cancel_2 h
  exact suffix_cancel h1

theorem selfV_inj {i j : Nat} (h : selfV i = selfV j) : toString i = toString j := by
  have h1 := append_left_cancel_2 h
  exact suffix_cancel h1

theorem selfK_ne_selfV (i j : Nat) : selfK i ≠ selfV j := append_k_ne_v _ _

theorem selfK_ne_crossK (i j : Nat) : selfK i ≠ crossK j := by
  intro h
  exact suffix_a_ne_c _ _ (append_left_cancel_2 h)

theorem selfK_ne_crossV (i j : Nat) : selfK i ≠ crossV j := append_k_ne_v _ _

theorem selfV_ne_crossK (i j : Nat) : selfV i ≠ crossK j := by
  intro h
  exact append_k_ne_v _ _ h.symm

theorem selfV_ne_crossV (i j : Nat) : selfV i ≠ crossV j := by
  intro h
  exact suffix_a_ne_c _ _ (append_left_cancel_2 h)

theorem crossK_ne_crossV (i j : Nat) : crossK i ≠ crossV j := append_k_ne_v _ _

/-! Characterizations of save_to_cache. -/

theorem save_absent {c : KVCache} {m : String} (pes : Nat) (o : Tensor)
    (h : dictGet c m = none) :
    save_to_cache pes c m o = .ok (dictSet c m o, o) := by
  simp [save_to_cache, h]

theorem save_big {c : KVCache} {m : String} {pes : Nat} {o : Tensor}
    (h : pes < o.seq) :
    save_to_cache pes c m o = .ok (dictSet c m o, o) := by
  unfold save_to_cache
  cases hd : dictGet c m with
  | none => rfl
  | some old => simp [h]

theorem save_append {c : KVCache} {m : String} {pes : Nat} {o old : Tensor}
    (hd : dictGet c m = some old) (hs : o.seq ≤ pes)
    (hb : old.batch = o.batch) (hf : old.feat = o.feat) :
    ∃ merged, save_to_cache pes c m o = .ok (dictSet c m merged, merged) ∧
      merged.batch = o.batch ∧ merged.seq = old.seq + o.seq ∧ merged.feat = o.feat := by
  have hns : ¬ pes < o.seq := Nat.not_lt.mpr hs
  refine ⟨⟨old.batch, old.seq + o.seq, old.feat,
      ((List.range old.batch).map (fun i => batchSlice old i ++ batchSlice o i)).flatten⟩,
    ?_, hb, rfl, hf⟩
  have hc : cat1 old o = .ok ⟨old.batch, old.seq + o.seq, old.feat,
      ((List.range old.batch).map (fun i => batchSlice old i ++ batchSlice o i)).flatten⟩ := by
    simp [cat1, hb, hf]
  simp [save_to_cache, hd, hns, hc]

theorem save_cat_error {c : KVCache} {m : String} {pes : Nat} {o old : Tensor}
    (hd : dictGet c m = some old) (hs : o.seq ≤ pes)
    (hbf : ¬ (old.batch = o.batch ∧ old.feat = o.feat)) :
    save_to_cache pes c m o = .error .shapeMismatch := by
  have hns : ¬ pes < o.seq := Nat.not_lt.mpr hs
  simp only [save_to_cache, hd, hns, if_false, cat1, hbf]
  rfl

/-! Shape contracts for the parametrized neural primitives.  The decoder's
linear layers map (batch, seq, n_state) to (batch, seq, n_state), layer
norms and the MLP preserve shapes, and qkv_attention returns a weighted
value of the query's shape; the cache routing proved below only needs these
shape facts. -/

/-- A linear projection onto feature dimension d, preserving batch and
sequence extents (nn.Linear(n_state, n_state) on the last axis). -/
def ProjOnto (f : Tensor → Tensor) (d : Nat) : Prop :=
  ∀ t, (f t).batch = t.batch ∧ (f t).seq = t.seq ∧ (f t).feat = d

/-- A shape-preserving map (LayerNorm, the MLP stack). -/
def PreservesShape (f : Tensor → Tensor) : Prop :=
  ∀ t, (f t).batch = t.batch ∧ (f t).seq = t.seq ∧ (f t).feat = t.feat

/-- Shape contract of one attention module with model width d. -/
structure GoodAttn (am : AttentionModule) (d : Nat) : Prop where
  hq : ProjOnto am.query d
  hk : ProjOnto am.key d
  hv : ProjOnto am.value d
  hqkv : ∀ q k v m, ((am.qkv_attention q k v m).1).batch = q.batch ∧
    ((am.qkv_attention q k v m).1).seq = q.seq ∧
    ((am.qkv_attention q k v m).1).feat = d
  hout : ProjOnto am.out d

/-- Shape contract of one residual block. -/
structure GoodBlock (rb : ResidualBlock) (d : Nat) : Prop where
  hattn : GoodAttn rb.attn d
  hln : PreservesShape rb.attn_ln
  hcln : PreservesShape rb.cross_attn_ln
  hmlp : PreservesShape rb.mlp
  hmlpln : PreservesShape rb.mlp_ln
  hcross : ∀ ca, rb.cross_attn = some ca → GoodAttn ca d

/-- Shape contract of the whole decoder: blocks of width d, an embedding
producing width-d features, a positional-embedding matrix of pes rows of
width d, and an embedding weight of width d. -/
structure GoodDecoder (pes : Nat) (dec : TextDecoder) (d : Nat) : Prop where
  hblocks : ∀ b ∈ dec.blocks, GoodBlock b d
  htok : ∀ x : TokenTensor, (dec.token_embedding x).batch = x.batch ∧
    (dec.token_embedding x).seq = x.seq ∧ (dec.token_embedding x).feat = d
  hlnf : PreservesShape dec.ln
  hw : (dec.token_embedding_weight.headD []).length = d
  hpes : dec.positional_embedding.length = pes
  hrows : ∀ row ∈ dec.positional_embedding, row.length = d

/-- A cache slot, when populated, carries the run's batch size and the model
width (trivially true of an absent slot). -/
def SlotOK (c : KVCache) (name : String) (bsz d : Nat) : Prop :=
  ∀ t, dictGet c name = some t → t.batch = bsz ∧ t.feat = d

/-- Sequence-position length currently stored in a slot (0 when absent). -/
def oldSeq (c : KVCache) (name : String) : Nat :=
  ((dictGet c name).map Tensor.seq).getD 0

theorem exceptBind_ok {ε α β : Type} (a : α) (f : α → Except ε β) :
    (Except.ok a >>= f) = f a := rfl

theorem exceptMap_ok {ε α β : Type} (a : α) (f : α → β) :
    (f <$> (Except.ok a : Except ε α)) = Except.ok (f a) := rfl

theorem exceptBind_err {ε α β : Type} (e : ε) (f : α → Except ε β) :
    ((Except.error e : Except ε α) >>= f) = Except.error e := rfl

theorem exceptMap_err {ε α β : Type} (e : ε) (f : α → β) :
    (f <$> (Except.error e : Except ε α)) = Except.error e := rfl

theorem tadd_ok {a b : Tensor} (hb : a.batch = b.batch) (hs : a.seq = b.seq)
    (hf : a.feat = b.feat) :
    tadd a b = .ok { a with data := List.zipWith (· + ·) a.data b.data } := by
  simp [tadd, hb, hs, hf]

/-- Storing a self-attention contribution o (of the slot's batch size and
width, with o.seq within the context bound) extends the slot's
sequence-position length by o.seq, whether the slot was empty or not. -/
theorem save_slot_char {pes d : Nat} {c : KVCache} {name : String} {o : Tensor}
    (hOK : SlotOK c name o.batch d) (hf : o.feat = d) (hs : o.seq ≤ pes) :
    ∃ w, save_to_cache pes c name o = .ok (dictSet c name w, w) ∧
      w.batch = o.batch ∧ w.feat = d ∧ w.seq = oldSeq c name + o.seq := by
  cases hd : dictGet c name with
  | none =>
      refine ⟨o, save_absent pes o hd, rfl, hf, ?_⟩
      simp [oldSeq, hd]
  | some old =>
      obtain ⟨hob, hof⟩ := hOK old hd
      obtain ⟨merged, heq, hb1, hs1, hf1⟩ :=
        save_append hd hs hob (by rw [hof, hf])
      exact ⟨merged, heq, hb1, hf1.trans hf, by simp [oldSeq, hd, hs1]⟩

/-- Self-attention path of attention_forward (cache present, xa = None):
the call succeeds, both slots of this module grow by the input's sequence
length, every other slot is untouched, and the head key of the (insertion
ordered) cache is preserved, or becomes this module's key slot if the cache
was empty. -/
theorem attn_self_char {pes d : Nat} {am : AttentionModule} (hg : GoodAttn am d)
    (x : Tensor) (mask : Option Tensor) (c : KVCache) (idx : String)
    (hkOK : SlotOK c ("k_" ++ idx) x.batch d) (hvOK : SlotOK c ("v_" ++ idx) x.batch d)
    (hseq : x.seq ≤ pes) :
    ∃ y c2, attention_forward pes am x none mask (some c) idx = .ok (y, some c2) ∧
      y.batch = x.batch ∧ y.seq = x.seq ∧ y.feat = d ∧
      (∃ tk, dictGet c2 ("k_" ++ idx) = some tk ∧ tk.batch = x.batch ∧ tk.feat = d ∧
        tk.seq = oldSeq c ("k_" ++ idx) + x.seq) ∧
      (∃ tv, dictGet c2 ("v_" ++ idx) = some tv ∧ tv.batch = x.batch ∧ tv.feat = d ∧
        tv.seq = oldSeq c ("v_" ++ idx) + x.seq) ∧
      (∀ name, name ≠ "k_" ++ idx → name ≠ "v_" ++ idx →
        dictGet c2 name = dictGet c name) ∧
      c2 ≠ [] ∧
      (c ≠ [] → c2.head?.map Prod.fst = c.head?.map Prod.fst) ∧
      (c = [] → c2.head?.map Prod.fst = some ("k_" ++ idx)) := by
  obtain ⟨hkb, hks, hkf⟩ := hg.hk x
  obtain ⟨hvb, hvs, hvf⟩ := hg.hv x
  have hvk : ("v_" ++ idx : String) ≠ "k_" ++ idx := Ne.symm (append_k_ne_v idx idx)
  obtain ⟨K1, heqK, hKb, hKf, hKs⟩ :=
    @save_slot_char pes d c ("k_" ++ idx) (am.key x)
      (by rw [hkb]; exact hkOK) hkf (by rw [hks]; exact hseq)
  have hvOK1 : SlotOK (dictSet c ("k_" ++ idx) K1) ("v_" ++ idx) (am.value x).batch d := by
    intro t ht
    rw [dictGet_dictSet_ne c K1 hvk] at ht
    rw [hvb]
    exact hvOK t ht
  obtain ⟨V1, heqV, hVb, hVf, hVs⟩ :=
    @save_slot_char pes d (dictSet c ("k_" ++ idx) K1) ("v_" ++ idx)
      (am.value x) hvOK1 hvf (by rw [hvs]; exact hseq)
  have hrun : attention_forward pes am x none mask (some c) idx =
      .ok (am.out (am.qkv_attention (am.query x) K1 V1 mask).1,
        some (dictSet (dictSet c ("k_" ++ idx) K1) ("v_" ++ idx) V1)) := by
    simp [attention_forward, heqK, heqV, exceptBind_ok, exceptMap_ok]
  obtain ⟨hwb, hws, hwf⟩ := hg.hqkv (am.query x) K1 V1 mask
  obtain ⟨hob, hos, hof⟩ := hg.hout (am.qkv_attention (am.query x) K1 V1 mask).1
  obtain ⟨hqb, hqs, _⟩ := hg.hq x
  refine ⟨_, _, hrun, by rw [hob, hwb, hqb], by rw [hos, hws, hqs], hof, ?_, ?_, ?_, ?_, ?_, ?_⟩
  · refine ⟨K1, ?_, by rw [hKb, hkb], hKf, by rw [hKs, hks]⟩
    rw [dictGet_dictSet_ne _ V1 (Ne.symm hvk), dictGet_dictSet_self]
  · refine ⟨V1, ?_, by rw [hVb, hvb], hVf, ?_⟩
    · rw [dictGet_dictSet_self]
    · rw [hVs, hvs]
      congr 1
      simp [oldSeq, dictGet_dictSet_ne c K1 hvk]
  · intro name hn1 hn2
    rw [dictGet_dictSet_ne _ V1 hn2, dictGet_dictSet_ne _ K1 hn1]
  · exact dictSet_ne_nil _ _ _
  · intro hc
    rw [dictSet_head_key _ _ _ (dictSet_ne_nil _ _ _), dictSet_head_key _ _ _ hc]
  · intro hc
    subst hc
    rw [dictSet_head_key _ _ _ (dictSet_ne_nil _ _ _), dictSet_nil_head]

/-- Cross-attention path of attention_forward (cache present, xa present)
when the encoder length exceeds the context bound (1500 > 448 for Whisper):
both cross slots are unconditionally overwritten with the projections of the
xa supplied to this call, whether or not they were already cached, because
Python evaluates the dict.get default eagerly and save_to_cache's length
test then replaces rather than appends. -/
theorem attn_cross_char {pes d : Nat} {am : AttentionModule} (hg : GoodAttn am d)
    (x a : Tensor) (mask : Option Tensor) (c : KVCache) (idx : String)
    (hbig : pes < a.seq) :
    ∃ y, attention_forward pes am x (some a) mask (some c) idx =
      .ok (y, some (dictSet (dictSet c ("k_" ++ idx) (am.key a)) ("v_" ++ idx) (am.value a))) ∧
      y.batch = x.batch ∧ y.seq = x.seq ∧ y.feat = d := by
  have hks : (am.key a).seq = a.seq := (hg.hk a).2.1
  have hvs : (am.value a).seq = a.seq := (hg.hv a).2.1
  have heqK : save_to_cache pes c ("k_" ++ idx) (am.key a) =
      .ok (dictSet c ("k_" ++ idx) (am.key a), am.key a) :=
    save_big (by rw [hks]; exact hbig)
  have heqV : save_to_cache pes (dictSet c ("k_" ++ idx) (am.key a)) ("v_" ++ idx) (am.value a) =
      .ok (dictSet (dictSet c ("k_" ++ idx) (am.key a)) ("v_" ++ idx) (am.value a), am.value a) :=
    save_big (by rw [hvs]; exact hbig)
  have hrun : attention_forward pes am x (some a) mask (some c) idx =
      .ok (am.out (am.qkv_attention (am.query x)
          ((dictGet (dictSet c ("k_" ++ idx) (am.key a)) ("k_" ++ idx)).getD (am.key a))
          ((dictGet (dictSet (dictSet c ("k_" ++ idx) (am.key a)) ("v_" ++ idx) (am.value a))
            ("v_" ++ idx)).getD (am.value a)) mask).1,
        some (dictSet (dictSet c ("k_" ++ idx) (am.key a)) ("v_" ++ idx) (am.value a))) := by
    simp [attention_forward, heqK, heqV, exceptBind_ok, exceptMap_ok]
  obtain ⟨hwb, hws, hwf⟩ := hg.hqkv (am.query x)
    ((dictGet (dictSet c ("k_" ++ idx) (am.key a)) ("k_" ++ idx)).getD (am.key a))
    ((dictGet (dictSet (dictSet c ("k_" ++ idx) (am.key a)) ("v_" ++ idx) (am.value a))
      ("v_" ++ idx)).getD (am.value a)) mask
  obtain ⟨hob, hos, hof⟩ := hg.hout _
  obtain ⟨hqb, hqs, _⟩ := hg.hq x
  exact ⟨_, hrun, by rw [hob, hwb, hqb], by rw [hos, hws, hqs], hof⟩

/-- One residual block of the decoder, applied to a width-d input within the
context bound, with encoder features longer than the context bound: it
succeeds, its two self-attention slots grow by the input's sequence length,
no slot of any other block is touched, and the cache's head key is
preserved (or becomes this block's self-attention key slot if the cache was
empty, as happens for block 0 on the first step). -/
theorem block_char {pes d : Nat} {rb : ResidualBlock} (hg : GoodBlock rb d)
    (x a : Tensor) (mask : Option Tensor) (c : KVCache) (i : Nat)
    (hxf : x.feat = d) (hseq : x.seq ≤ pes) (hbig : pes < a.seq)
    (hkOK : SlotOK c (selfK i) x.batch d) (hvOK : SlotOK c (selfV i) x.batch d) :
    ∃ x3 c2, block_forward pes rb x (some a) mask (some c) (toString i) = .ok (x3, some c2) ∧
      x3.batch = x.batch ∧ x3.seq = x.seq ∧ x3.feat = d ∧
      (∃ tk, dictGet c2 (selfK i) = some tk ∧ tk.batch = x.batch ∧ tk.feat = d ∧
        tk.seq = oldSeq c (selfK i) + x.seq) ∧
      (∃ tv, dictGet c2 (selfV i) = some tv ∧ tv.batch = x.batch ∧ tv.feat = d ∧
        tv.seq = oldSeq c (selfV i) + x.seq) ∧
      (∀ name, name ≠ selfK i → name ≠ selfV i → name ≠ crossK i → name ≠ crossV i →
        dictGet c2 name = dictGet c name) ∧
      c2 ≠ [] ∧
      (c ≠ [] → c2.head?.map Prod.fst = c.head?.map Prod.fst) ∧
      (c = [] → c2.head?.map Prod.fst = some (selfK i)) := by
  obtain ⟨hlb, hls, hlf⟩ := hg.hln x
  have hkOK' : SlotOK c ("k_" ++ (toString i ++ "a")) (rb.attn_ln x).batch d := by
    rw [hlb]; exact hkOK
  have hvOK' : SlotOK c ("v_" ++ (toString i ++ "a")) (rb.attn_ln x).batch d := by
    rw [hlb]; exact hvOK
  obtain ⟨x0, cA, hA, hx0b, hx0s, hx0f, ⟨tk, htk, htkb, htkf, htks⟩,
      ⟨tv, htv, htvb, htvf, htvs⟩, hAframe, hAne, hAhead, hAheadnil⟩ :=
    @attn_self_char pes d _ hg.hattn (rb.attn_ln x) mask c (toString i ++ "a")
      hkOK' hvOK' (by rw [hls]; exact hseq)
  have hadd1 : tadd x x0 = .ok { x with data := List.zipWith (· + ·) x.data x0.data } :=
    tadd_ok (by rw [hx0b, hlb]) (by rw [hx0s, hls]) (by rw [hx0f, hxf])
  set x1 : Tensor := { x with data := List.zipWith (· + ·) x.data x0.data } with hx1
  have hx1b : x1.batch = x.batch := rfl
  have hx1s : x1.seq = x.seq := rfl
  have hx1f : x1.feat = x.feat := rfl
  -- the cross-attention sublayer (present on every decoder block of the
  -- model; absent blocks just skip it)
  cases hca : rb.cross_attn with
  | none =>
      obtain ⟨hmb, hms, hmf⟩ := hg.hmlpln x1
      obtain ⟨hpb, hps, hpf⟩ := hg.hmlp (rb.mlp_ln x1)
      have hadd3 : tadd x1 (rb.mlp (rb.mlp_ln x1)) =
          .ok { x1 with data := List.zipWith (· + ·) x1.data (rb.mlp (rb.mlp_ln x1)).data } :=
        tadd_ok (by rw [hpb, hmb]) (by rw [hps, hms]) (by rw [hpf, hmf])
      refine ⟨{ x1 with data := List.zipWith (· + ·) x1.data (rb.mlp (rb.mlp_ln x1)).data },
        cA, ?_, rfl, rfl, hxf,
        ⟨tk, htk, htkb.trans hlb, htkf, by simp only [selfK]; rw [htks, hls]⟩,
        ⟨tv, htv, htvb.trans hlb, htvf, by simp only [selfV]; rw [htvs, hls]⟩,
        ?_, hAne, hAhead, hAheadnil⟩
      · simp [block_forward, hA, hadd1, hca, hadd3, exceptBind_ok, exceptMap_ok]
      · intro name h1 h2 _ _
        exact hAframe name h1 h2
  | some ca =>
      have hgc : GoodAttn ca d := hg.hcross ca hca
      obtain ⟨hcb, hcs, hcf⟩ := hg.hcln x1
      obtain ⟨xc, hC, hxcb, hxcs, hxcf⟩ :=
        @attn_cross_char pes d _ hgc (rb.cross_attn_ln x1) a none cA
          (toString i ++ "c") hbig
      have hadd2 : tadd x1 xc =
          .ok { x1 with data := List.zipWith (· + ·) x1.data xc.data } :=
        tadd_ok (by rw [hxcb, hcb]) (by rw [hxcs, hcs])
          (by rw [hxcf]; exact hxf)
      set x2 : Tensor := { x1 with data := List.zipWith (· + ·) x1.data xc.data } with hx2
      obtain ⟨hmb, hms, hmf⟩ := hg.hmlpln x2
      obtain ⟨hpb, hps, hpf⟩ := hg.hmlp (rb.mlp_ln x2)
      have hadd3 : tadd x2 (rb.mlp (rb.mlp_ln x2)) =
          .ok { x2 with data := List.zipWith (· + ·) x2.data (rb.mlp (rb.mlp_ln x2)).data } :=
        tadd_ok (by rw [hpb, hmb]) (by rw [hps, hms]) (by rw [hpf, hmf])
      set cB : KVCache :=
        dictSet (dictSet cA ("k_" ++ (toString i ++ "c")) (ca.key a))
          ("v_" ++ (toString i ++ "c")) (ca.value a) with hcB
      have hframeB : ∀ name, name ≠ "k_" ++ (toString i ++ "c") →
          name ≠ "v_" ++ (toString i ++ "c") →
          dictGet cB name = dictGet cA name := by
        intro name h3 h4
        rw [hcB, dictGet_dictSet_ne _ _ h4, dictGet_dictSet_ne _ _ h3]
      refine ⟨{ x2 with data := List.zipWith (· + ·) x2.data (rb.mlp (rb.mlp_ln x2)).data },
        cB, ?_, rfl, rfl, hxf,
        ?_, ?_, ?_, ?_, ?_, ?_⟩
      · simp [block_forward, hA, hadd1, hca, hC, hadd2, hadd3, exceptBind_ok, exceptMap_ok]
      · refine ⟨tk, ?_, htkb.trans hlb, htkf, by simp only [selfK]; rw [htks, hls]⟩
        rw [hframeB _ (selfK_ne_crossK i i) (selfK_ne_crossV i i)]
        exact htk
      · refine ⟨tv, ?_, htvb.trans hlb, htvf, by simp only [selfV]; rw [htvs, hls]⟩
        rw [hframeB _ (selfV_ne_crossK i i) (selfV_ne_crossV i i)]
        exact htv
      · intro name h1 h2 h3 h4
        rw [hframeB name h3 h4]
        exact hAframe name h1 h2
      · exact dictSet_ne_nil _ _ _
      · intro hc
        rw [hcB, dictSet_head_key _ _ _ (dictSet_ne_nil _ _ _),
          dictSet_head_key _ _ _ hAne]
        exact hAhead hc
      · intro hc
        rw [hcB, dictSet_head_key _ _ _ (dictSet_ne_nil _ _ _),
          dictSet_head_key _ _ _ hAne]
        exact hAheadnil hc

theorem oldSeq_congr {c1 c2 : KVCache} {n : String}
    (h : dictGet c1 n = dictGet c2 n) : oldSeq c1 n = oldSeq c2 n := by
  simp [oldSeq, h]

theorem selfK_ne_selfK {i j : Nat} (h : toString i ≠ toString j) :
    selfK i ≠ selfK j := fun hh => h (selfK_inj hh)

theorem selfV_ne_selfV {i j : Nat} (h : toString i ≠ toString j) :
    selfV i ≠ selfV j := fun hh => h (selfV_inj hh)

/-- The block loop of decoder_forward over an enumerated block list with
pairwise-distinct index strings: every self-attention slot of a listed block
grows by the input's sequence length, slots of unlisted modules are
untouched, the output keeps the input's batch and sequence extents, and the
cache's head key is preserved (or becomes the first block's self-attention
key slot when starting from an empty cache). -/
theorem run_blocks_char {pes d : Nat} (bs : List (Nat × ResidualBlock)) (xa : Tensor)
    (mask : Option Tensor)
    (hbs : ∀ p ∈ bs, GoodBlock p.2 d)
    (hnodup : (bs.map (fun p => toString p.1)).Nodup)
    (hbig : pes < xa.seq) :
    ∀ (x : Tensor) (c : KVCache), x.feat = d → x.seq ≤ pes →
    (∀ p ∈ bs, SlotOK c (selfK p.1) x.batch d ∧ SlotOK c (selfV p.1) x.batch d) →
    ∃ xF cF, run_blocks pes bs x xa mask (some c) = .ok (xF, some cF) ∧
      xF.batch = x.batch ∧ xF.seq = x.seq ∧ xF.feat = d ∧
      (∀ p ∈ bs, (∃ tk, dictGet cF (selfK p.1) = some tk ∧ tk.batch = x.batch ∧
          tk.feat = d ∧ tk.seq = oldSeq c (selfK p.1) + x.seq) ∧
        (∃ tv, dictGet cF (selfV p.1) = some tv ∧ tv.batch = x.batch ∧
          tv.feat = d ∧ tv.seq = oldSeq c (selfV p.1) + x.seq)) ∧
      (∀ name, (∀ p ∈ bs, name ≠ selfK p.1 ∧ name ≠ selfV p.1 ∧
          name ≠ crossK p.1 ∧ name ≠ crossV p.1) →
        dictGet cF name = dictGet c name) ∧
      (c ≠ [] → cF ≠ [] ∧ cF.head?.map Prod.fst = c.head?.map Prod.fst) ∧
      (c = [] → (bs = [] ∧ cF = []) ∨
        (∃ q, bs.head? = some q ∧ cF ≠ [] ∧ cF.head?.map Prod.fst = some (selfK q.1))) := by
  induction bs with
  | nil =>
      intro x c hxf hseq _
      refine ⟨x, c, rfl, rfl, rfl, hxf, by simp, fun name _ => rfl, fun hc => ⟨hc, rfl⟩,
        fun hc => Or.inl ⟨rfl, hc⟩⟩
  | cons q rest ih =>
      obtain ⟨i, b⟩ := q
      intro x c hxf hseq hslots
      have hg : GoodBlock b d := hbs (i, b) (List.mem_cons_self _ _)
      obtain ⟨hkOK, hvOK⟩ := hslots (i, b) (List.mem_cons_self _ _)
      obtain ⟨x3, c2, hB, hx3b, hx3s, hx3f, ⟨tk, htk, htkb, htkf, htks⟩,
          ⟨tv, htv, htvb, htvf, htvs⟩, hBframe, hBne, hBhead, hBheadnil⟩ :=
        @block_char pes d _ hg x xa mask c i hxf hseq hbig hkOK hvOK
      have hni : toString i ∉ rest.map (fun p => toString p.1) := by
        have := hnodup
        simp only [List.map_cons, List.nodup_cons] at this
        exact this.1
      have hts : ∀ p ∈ rest, toString p.1 ≠ toString i := by
        intro p hp hh
        exact hni (hh ▸ List.mem_map_of_mem (fun p => toString p.1) hp)
      -- slots of blocks below this one are untouched by this block
      have hrest_frame : ∀ p ∈ rest,
          dictGet c2 (selfK p.1) = dictGet c (selfK p.1) ∧
          dictGet c2 (selfV p.1) = dictGet c (selfV p.1) := by
        intro p hp
        constructor
        · exact hBframe _ (selfK_ne_selfK (hts p hp)) (selfK_ne_selfV p.1 i)
            (selfK_ne_crossK p.1 i) (selfK_ne_crossV p.1 i)
        · exact hBframe _ (Ne.symm (selfK_ne_selfV i p.1)) (selfV_ne_selfV (hts p hp))
            (selfV_ne_crossK p.1 i) (selfV_ne_crossV p.1 i)
      have hslots2 : ∀ p ∈ rest,
          SlotOK c2 (selfK p.1) x3.batch d ∧ SlotOK c2 (selfV p.1) x3.batch d := by
        intro p hp
        obtain ⟨hpk, hpv⟩ := hslots p (List.mem_cons_of_mem _ hp)
        obtain ⟨hfk, hfv⟩ := hrest_frame p hp
        rw [hx3b]
        constructor
        · intro t ht
          exact hpk t (hfk ▸ ht)
        · intro t ht
          exact hpv t (hfv ▸ ht)
      have hnodup2 : (rest.map (fun p => toString p.1)).Nodup := by
        have := hnodup
        simp only [List.map_cons, List.nodup_cons] at this
        exact this.2
      obtain ⟨xF, cF, hR, hFb, hFs, hFf, hFslots, hFframe, hFhead, hFheadnil⟩ :=
        ih (fun p hp => hbs p (List.mem_cons_of_mem _ hp)) hnodup2 x3 c2 hx3f
          (hx3s ▸ hseq) hslots2
      have hrun : run_blocks pes ((i, b) :: rest) x xa mask (some c) =
          .ok (xF, some cF) := by
        simp [run_blocks, hB, hR, exceptBind_ok]
      refine ⟨xF, cF, hrun, hFb.trans hx3b, hFs.trans hx3s, hFf, ?_, ?_, ?_, ?_⟩
      · intro p hp
        rcases List.mem_cons.mp hp with hp1 | hp2
        · subst hp1
          -- this block's slots: untouched by the deeper blocks
          have hkeep : dictGet cF (selfK i) = dictGet c2 (selfK i) := by
            refine hFframe _ ?_
            intro p2 hp2
            exact ⟨selfK_ne_selfK (Ne.symm (hts p2 hp2)), selfK_ne_selfV i p2.1,
              selfK_ne_crossK i p2.1, selfK_ne_crossV i p2.1⟩
          have hkeepv : dictGet cF (selfV i) = dictGet c2 (selfV i) := by
            refine hFframe _ ?_
            intro p2 hp2
            exact ⟨Ne.symm (selfK_ne_selfV p2.1 i), selfV_ne_selfV (Ne.symm (hts p2 hp2)),
              selfV_ne_crossK i p2.1, selfV_ne_crossV i p2.1⟩
          exact ⟨⟨tk, hkeep ▸ htk, htkb, htkf, htks⟩,
            ⟨tv, hkeepv ▸ htv, htvb, htvf, htvs⟩⟩
        · obtain ⟨⟨tk2, htk2, htk2b, htk2f, htk2s⟩, ⟨tv2, htv2, htv2b, htv2f, htv2s⟩⟩ :=
            hFslots p hp2
          obtain ⟨hfk, hfv⟩ := hrest_frame p hp2
          refine ⟨⟨tk2, htk2, htk2b.trans hx3b, htk2f, ?_⟩,
            ⟨tv2, htv2, htv2b.trans hx3b, htv2f, ?_⟩⟩
          · rw [htk2s, oldSeq_congr hfk, hx3s]
          · rw [htv2s, oldSeq_congr hfv, hx3s]
      · intro name hn
        obtain ⟨h1, h2, h3, h4⟩ := hn (i, b) (List.mem_cons_self _ _)
        have hrest : dictGet cF name = dictGet c2 name :=
          hFframe name (fun p hp => hn p (List.mem_cons_of_mem _ hp))
        rw [hrest]
        exact hBframe name h1 h2 h3 h4
      · intro hc
        obtain ⟨hne, hhd⟩ := hFhead hBne
        exact ⟨hne, hhd.trans (hBhead hc)⟩
      · intro hc
        obtain ⟨hne, hhd⟩ := hFhead hBne
        exact Or.inr ⟨(i, b), rfl, hne, hhd.trans (hBheadnil hc)⟩

theorem addPos_ok {t : Tensor} {m : List (List ℚ)}
    (hr : m.length = t.seq) (hc : (m.headD []).length = t.feat) :
    ∃ u, addPos t m = .ok u ∧ u.batch = t.batch ∧ u.seq = t.seq ∧ u.feat = t.feat := by
  have hcond : (m.length = t.seq ∨ m.length = 1 ∨ t.seq = 1) ∧
      ((m.headD []).length = t.feat ∨ (m.headD []).length = 1 ∨ t.feat = 1) :=
    ⟨Or.inl hr, Or.inl hc⟩
  simp only [addPos]
  rw [if_pos hcond]
  exact ⟨_, rfl, rfl, by rw [hr, max_self], by rw [hc, max_self]⟩

theorem matmulT_ok {t : Tensor} {w : List (List ℚ)} (h : (w.headD []).length = t.feat) :
    ∃ u, matmulT t w = .ok u ∧ u.batch = t.batch ∧ u.seq = t.seq := by
  simp only [matmulT]
  rw [if_pos h]
  exact ⟨_, rfl, rfl, rfl⟩

theorem posSlice_len {pe : List (List ℚ)} {offset L : Nat}
    (h : offset + L ≤ pe.length) : (posSlice pe offset L).length = L := by
  simp only [posSlice, List.length_take, List.length_drop]
  omega

theorem posSlice_head_mem {pe : List (List ℚ)} {offset L : Nat}
    (hoff : offset < pe.length) (hL : 1 ≤ L) :
    ∃ row ∈ pe, (posSlice pe offset L).headD [] = row := by
  obtain ⟨row, hrow⟩ : ∃ row, pe[offset]? = some row :=
    ⟨pe[offset], List.getElem?_eq_getElem hoff⟩
  have hd : (pe.drop offset).head? = some row := by
    rw [List.head?_drop]
    exact hrow
  refine ⟨row, List.getElem?_mem hrow, ?_⟩
  unfold posSlice
  cases hdrop : pe.drop offset with
  | nil => rw [hdrop] at hd; simp at hd
  | cons a t =>
      rw [hdrop] at hd
      simp only [List.head?_cons, Option.some.injEq] at hd
      subst hd
      cases L with
      | zero => omega
      | succ n => simp

/-- Invariant of a decoding run's cache after feeding len total token
positions with batch size bsz through a decoder of nb blocks: either the run
has not started (empty dict), or the dict's first-inserted key is block 0's
self-attention key slot (which decoder_forward reads to compute the offset)
and every block's two self-attention slots hold a (bsz, len, d) tensor. -/
def CacheOK (c : KVCache) (nb bsz len d : Nat) : Prop :=
  (c = [] ∧ len = 0) ∨
  (c.head?.map Prod.fst = some (selfK 0) ∧
    ∀ i < nb, (∃ tk, dictGet c (selfK i) = some tk ∧ tk.batch = bsz ∧
        tk.seq = len ∧ tk.feat = d) ∧
      (∃ tv, dictGet c (selfV i) = some tv ∧ tv.batch = bsz ∧
        tv.seq = len ∧ tv.feat = d))

/-- One step of the direct backend on a cache satisfying the run invariant:
it succeeds and every self-attention slot's sequence-position length grows by
exactly the number of supplied token positions. -/
theorem decoder_step_char {pes d : Nat} {dec : TextDecoder} (hg : GoodDecoder pes dec d)
    (hnodup : (dec.blocks.enum.map (fun p => toString p.1)).Nodup)
    (hnb : dec.blocks ≠ [])
    (x : TokenTensor) (xaT : Tensor) (c : KVCache) (bsz len : Nat)
    (hxb : x.batch = bsz) (hL : 1 ≤ x.seq) (hsum : len + x.seq ≤ pes)
    (hbig : pes < xaT.seq)
    (hc : CacheOK c dec.blocks.length bsz len d) :
    ∃ c', stepKV pes dec x (some xaT) c = .ok c' ∧
      CacheOK c' dec.blocks.length bsz (len + x.seq) d := by
  have hnb' : 0 < dec.blocks.length := List.length_pos.mpr hnb
  -- the offset read from the first cache value equals the invariant's len
  have hoff : (match (some c : Option KVCache) with
      | some ((_, v) :: _) => v.seq
      | _ => 0) = len := by
    rcases hc with ⟨hnil, hlen⟩ | ⟨hhead, hslots⟩
    · subst hnil
      simpa using hlen.symm
    · cases c with
      | nil => simp at hhead
      | cons hd tl =>
          obtain ⟨k0, v0⟩ := hd
          simp only [List.head?_cons, Option.map_some] at hhead
          have hk0 : k0 = selfK 0 := by simpa using hhead
          subst hk0
          obtain ⟨⟨tk, htk, _, htks, _⟩, _⟩ := hslots 0 hnb'
          have hv0 : dictGet ((selfK 0, v0) :: tl) (selfK 0) = some v0 :=
            dictGet_of_head _ _ v0 rfl
          have htv : tk = v0 := Option.some_inj.mp (htk.symm.trans hv0)
          show v0.seq = len
          rw [← htv]
          exact htks
  obtain ⟨heb, hes, hef⟩ := hg.htok x
  have hmlen : (posSlice dec.positional_embedding len x.seq).length =
      (dec.token_embedding x).seq := by
    rw [hes, posSlice_len]
    rw [hg.hpes]
    exact hsum
  have hmhead : ((posSlice dec.positional_embedding len x.seq).headD []).length =
      (dec.token_embedding x).feat := by
    obtain ⟨row, hmem, hrow⟩ := @posSlice_head_mem dec.positional_embedding
      len x.seq (by rw [hg.hpes]; omega) hL
    rw [hrow, hg.hrows row hmem, hef]
  obtain ⟨xE, hE, hEb, hEs, hEf⟩ := addPos_ok hmlen hmhead
  -- every listed block's self-attention slots satisfy the slot contract
  have hslots0 : ∀ p ∈ dec.blocks.enum,
      SlotOK c (selfK p.1) xE.batch d ∧ SlotOK c (selfV p.1) xE.batch d := by
    intro p hp
    have hpi : p.1 < dec.blocks.length := by
      have := List.fst_lt_add_of_mem_enumFrom (n := 0) hp
      simpa using this
    rw [hEb, heb, hxb]
    rcases hc with ⟨hnil, _⟩ | ⟨_, hslots⟩
    · subst hnil
      exact ⟨fun t ht => by simp [dictGet] at ht, fun t ht => by simp [dictGet] at ht⟩
    · obtain ⟨⟨tk, htk, htkb, _, htkf⟩, ⟨tv, htv, htvb, _, htvf⟩⟩ := hslots p.1 hpi
      exact ⟨fun t ht => by rw [htk] at ht; cases ht; exact ⟨htkb, htkf⟩,
        fun t ht => by rw [htv] at ht; cases ht; exact ⟨htvb, htvf⟩⟩
  obtain ⟨xF, cF, hR, hFb, hFs, hFf, hFslots, _, hFhead, hFheadnil⟩ :=
    run_blocks_char dec.blocks.enum xaT dec.mask
      (fun p hp => hg.hblocks p.2 (List.snd_mem_of_mem_enumFrom hp)) hnodup hbig
      xE c (hEf.trans hef) (by rw [hEs, hes]; omega) hslots0
  obtain ⟨hlb, hls, hlf⟩ := hg.hlnf xF
  obtain ⟨lg, hlg, _, _⟩ := matmulT_ok (t := dec.ln xF)
    (w := dec.token_embedding_weight) (by rw [hlf, hFf]; exact hg.hw)
  have hrun : stepKV pes dec x (some xaT) c = .ok cF := by
    simp [stepKV, decoder_forward, hoff, hE, hR, hlg, exceptBind_ok, exceptMap_ok,
      pure, Except.pure]
  refine ⟨cF, hrun, Or.inr ⟨?_, ?_⟩⟩
  · -- head key: selfK 0 in both phases
    rcases hc with ⟨hnil, _⟩ | ⟨hhead, _⟩
    · rcases hFheadnil hnil with ⟨henum, _⟩ | ⟨q, hq, _, hqhead⟩
      · exfalso
        have h0 : dec.blocks.length = 0 := by
          have h1 := congrArg List.length henum
          simpa using h1
        omega
      · cases hbl : dec.blocks with
        | nil => exact absurd hbl hnb
        | cons b0 bt =>
            rw [hbl] at hq
            have hq0 : q = (0, b0) := by
              have : (List.enum (b0 :: bt)).head? = some (0, b0) := rfl
              rw [this] at hq
              simpa using hq.symm
            rw [hq0] at hqhead
            exact hqhead
    · have hcne : c ≠ [] := by
        intro hcc
        rw [hcc] at hhead
        simp at hhead
      obtain ⟨_, hhd⟩ := hFhead hcne
      rw [hhd]
      exact hhead
  · intro i hi
    have hmem : (i, dec.blocks[i]) ∈ dec.blocks.enum := by
      have h2 : i < dec.blocks.enum.length := by simpa using hi
      have h3 : dec.blocks.enum[i] = (i, dec.blocks[i]) := by simp
      exact h3 ▸ List.getElem_mem h2
    obtain ⟨⟨tk, htk, htkb, htkf, htks⟩, ⟨tv, htv, htvb, htvf, htvs⟩⟩ := hFslots _ hmem
    have hold : oldSeq c (selfK i) = len ∧ oldSeq c (selfV i) = len := by
      rcases hc with ⟨hnil, hlen⟩ | ⟨_, hslots⟩
      · subst hnil
        simp [oldSeq, dictGet, hlen]
      · obtain ⟨⟨tk0, htk0, _, htk0s, _⟩, ⟨tv0, htv0, _, htv0s, _⟩⟩ := hslots i hi
        constructor
        · rw [oldSeq, htk0]
          simpa using htk0s
        · rw [oldSeq, htv0]
          simpa using htv0s
    have hxb2 : xE.batch = bsz := by rw [hEb, heb, hxb]
    exact ⟨⟨tk, htk, by rw [htkb, hxb2], by rw [htks, hold.1, hEs, hes], htkf⟩,
      ⟨tv, htv, by rw [htvb, hxb2], by rw [htvs, hold.2, hEs, hes], htvf⟩⟩

/-- A whole decoding run preserves the cache invariant, accumulating the
total number of supplied token positions. -/
theorem runSteps_char {pes d : Nat} {dec : TextDecoder} (hg : GoodDecoder pes dec d)
    (hnodup : (dec.blocks.enum.map (fun p => toString p.1)).Nodup)
    (hnb : dec.blocks ≠ []) (xaT : Tensor) (hbig : pes < xaT.seq) (bsz : Nat) :
    ∀ (steps : List TokenTensor) (c : KVCache) (len : Nat),
    CacheOK c dec.blocks.length bsz len d →
    (∀ s ∈ steps, s.batch = bsz ∧ 1 ≤ s.seq) →
    len + (steps.map TokenTensor.seq).sum ≤ pes →
    ∃ final, runSteps pes dec (some xaT) c steps = .ok final ∧
      CacheOK final dec.blocks.length bsz (len + (steps.map TokenTensor.seq).sum) d := by
  intro steps
  induction steps with
  | nil =>
      intro c len hcache _ _
      exact ⟨c, rfl, by simpa using hcache⟩
  | cons s rest ih =>
      intro c len hcache hsteps hbound
      obtain ⟨hsb, hss⟩ := hsteps s (List.mem_cons_self _ _)
      have hb1 : len + s.seq ≤ pes := by
        simp only [List.map_cons, List.sum_cons] at hbound
        omega
      obtain ⟨c2, hstep, hc2⟩ :=
        decoder_step_char hg hnodup hnb s xaT c bsz len hsb hss hb1 hbig hcache
      obtain ⟨final, hrest, hfinal⟩ := ih c2 (len + s.seq) hc2
        (fun p hp => hsteps p (List.mem_cons_of_mem _ hp))
        (by simp only [List.map_cons, List.sum_cons] at hbound; omega)
      refine ⟨final, ?_, ?_⟩
      · simp [runSteps, hstep, hrest, exceptBind_ok]
      · simp only [List.map_cons, List.sum_cons]
        rw [← Nat.add_assoc]
        exact hfinal

/-- C1: for every valid decoding run (first step on an empty cache with
encoder features, later steps supplying only the new tokens, every step's
batch equal to the run's batch size, encoder length above the context bound
so the cross slots never append, and a total token count within the context
bound so the replace policy never triggers), after the run every
self-attention cache slot's sequence-position length equals the sum of the
token counts supplied by the steps. -/
theorem C1_self_slot_length_invariant (pes d bsz : Nat) (dec : TextDecoder)
    (hg : GoodDecoder pes dec d)
    (hnodup : (dec.blocks.enum.map (fun p => toString p.1)).Nodup)
    (hnb : dec.blocks ≠ [])
    (xaT : Tensor) (hbig : pes < xaT.seq)
    (steps : List TokenTensor) (hne : steps ≠ [])
    (hsteps : ∀ s ∈ steps, s.batch = bsz ∧ 1 ≤ s.seq)
    (hbound : (steps.map TokenTensor.seq).sum ≤ pes) :
    ∃ final, runSteps pes dec (some xaT) [] steps = .ok final ∧
      ∀ i < dec.blocks.length,
        (∃ tk, dictGet final (selfK i) = some tk ∧
          tk.seq = (steps.map TokenTensor.seq).sum) ∧
        (∃ tv, dictGet final (selfV i) = some tv ∧
          tv.seq = (steps.map TokenTensor.seq).sum) := by
  obtain ⟨final, hrun, hfin⟩ :=
    runSteps_char hg hnodup hnb xaT hbig bsz steps [] 0 (Or.inl ⟨rfl, rfl⟩) hsteps
      (by simpa using hbound)
  have hpos : 1 ≤ (steps.map TokenTensor.seq).sum := by
    cases steps with
    | nil => exact absurd rfl hne
    | cons s rest =>
        have := (hsteps s (List.mem_cons_self _ _)).2
        simp only [List.map_cons, List.sum_cons]
        omega
  refine ⟨final, hrun, ?_⟩
  rcases hfin with ⟨_, hzero⟩ | ⟨_, hslots⟩
  · omega
  · intro i hi
    obtain ⟨⟨tk, htk, _, htks, _⟩, ⟨tv, htv, _, htvs, _⟩⟩ := hslots i hi
    exact ⟨⟨tk, htk, by simpa using htks⟩, ⟨tv, htv, by simpa using htvs⟩⟩

/-! A concrete decoder instance with model width 1, one residual block and a
context bound of 4, used to evaluate the theorems on explicit inputs. -/

/-- A width-1 attention module with trivial projections. -/
def amW : AttentionModule :=
  { query := fun t => { t with feat := 1 }, key := fun t => { t with feat := 1 },
    value := fun t => { t with feat := 1 },
    qkv_attention := fun q _ _ _ => ({ q with feat := 1 }, q),
    out := fun t => { t with feat := 1 } }

/-- A one-block residual stack over amW. -/
def blkW : ResidualBlock :=
  { attn := amW, attn_ln := id, cross_attn := some amW, cross_attn_ln := id,
    mlp := id, mlp_ln := id }

/-- A concrete decoder: one block, width 1, 4 positional-embedding rows. -/
def decW : TextDecoder :=
  { token_embedding := fun x =>
      { batch := x.batch, seq := x.seq, feat := 1,
        data := List.replicate (x.batch * x.seq) 0 },
    token_embedding_weight := [[1]],
    positional_embedding := [[0], [0], [0], [0]],
    mask := none, blocks := [blkW], ln := id }

theorem amW_good : GoodAttn amW 1 :=
  ⟨fun _ => ⟨rfl, rfl, rfl⟩, fun _ => ⟨rfl, rfl, rfl⟩, fun _ => ⟨rfl, rfl, rfl⟩,
    fun _ _ _ _ => ⟨rfl, rfl, rfl⟩, fun _ => ⟨rfl, rfl, rfl⟩⟩

theorem decW_good : GoodDecoder 4 decW 1 := by
  refine ⟨?_, fun _ => ⟨rfl, rfl, rfl⟩, fun _ => ⟨rfl, rfl, rfl⟩, rfl, rfl, ?_⟩
  · intro b hb
    have hb' : b = blkW := by simpa [decW] using hb
    subst hb'
    refine ⟨amW_good, fun _ => ⟨rfl, rfl, rfl⟩, fun _ => ⟨rfl, rfl, rfl⟩,
      fun _ => ⟨rfl, rfl, rfl⟩, fun _ => ⟨rfl, rfl, rfl⟩, ?_⟩
    intro ca hca
    have : ca = amW := by simpa [blkW] using hca.symm
    subst this
    exact amW_good
  · intro row hrow
    have hr : row = [0] := by simpa [decW] using hrow
    subst hr
    rfl

/-- Encoder features longer than the context bound 4. -/
def xaTW : Tensor := { batch := 1, seq := 5, feat := 1, data := [] }

/-- A two-step run: 1 token, then 2 tokens, batch size 1. -/
def stepsW : List TokenTensor :=
  [{ batch := 1, seq := 1, data := [0] }, { batch := 1, seq := 2, data := [0, 0] }]

/-- Witness for C1: the concrete two-step run (1 then 2 tokens) on the
one-block decoder leaves every self-attention slot at sequence length 3. -/
theorem C1_self_slot_length_invariant_witness :
    ∃ final, runSteps 4 decW (some xaTW) [] stepsW = .ok final ∧
      ∀ i < decW.blocks.length,
        (∃ tk, dictGet final (selfK i) = some tk ∧
          tk.seq = (stepsW.map TokenTensor.seq).sum) ∧
        (∃ tv, dictGet final (selfV i) = some tv ∧
          tv.seq = (stepsW.map TokenTensor.seq).sum) := by
  refine C1_self_slot_length_invariant 4 1 1 decW decW_good (by decide)
    (by simp [decW]) xaTW (by decide) stepsW (by simp [stepsW]) ?_ (by decide)
  intro s hs
  simp only [stepsW, List.mem_cons, List.not_mem_nil, or_false] at hs
  rcases hs with rfl | rfl
  · exact ⟨rfl, by decide⟩
  · exact ⟨rfl, by decide⟩

/-- C6: (1) a step whose tokens' batch size disagrees with the batch size of
a non-empty cache (its k_0a slot, populated by any earlier step) fails with
the shape-mismatch error, raised inside save_to_cache when torch.cat rejects
the unequal batch dimensions; (2) a step on an empty cache with no encoder
features supplied fails with the missing-features error, raised when
decoder_forward dereferences xa.dtype.  In both cases the Except value is an
error, so the error propagates synchronously to the caller of the step and
the call produces no result. -/
theorem C6_step_error_conditions (pes d : Nat) (dec : TextDecoder)
    (hg : GoodDecoder pes dec d) :
    (∀ (x : TokenTensor) (xaT : Tensor) (c : KVCache) (k0 : String) (v0 tk : Tensor),
      dec.blocks ≠ [] → c.head? = some (k0, v0) → dictGet c (selfK 0) = some tk →
      tk.batch ≠ x.batch → 1 ≤ x.seq → v0.seq + x.seq ≤ pes →
      decoder_forward pes dec x (some xaT) (some c) = .error .shapeMismatch) ∧
    (∀ x : TokenTensor, 1 ≤ x.seq → x.seq ≤ pes →
      decoder_forward pes dec x none (some []) = .error .missingFeatures) := by
  constructor
  · intro x xaT c k0 v0 tk hnb hhead htk hbne hL hsum
    obtain ⟨b0, bt, hbl⟩ := List.exists_cons_of_ne_nil hnb
    have hgb : GoodBlock b0 d := hg.hblocks b0 (by rw [hbl]; exact List.mem_cons_self _ _)
    obtain ⟨heb, hes, hef⟩ := hg.htok x
    -- the cache is non-empty, so the offset is the head value's length
    obtain ⟨tl, hc⟩ : ∃ tl, c = (k0, v0) :: tl := by
      cases c with
      | nil => simp at hhead
      | cons hd tl =>
          simp only [List.head?_cons, Option.some.injEq] at hhead
          exact ⟨tl, by rw [← hhead]⟩
    have hmlen : (posSlice dec.positional_embedding v0.seq x.seq).length =
        (dec.token_embedding x).seq := by
      rw [hes, posSlice_len]
      rw [hg.hpes]
      exact hsum
    have hmhead : ((posSlice dec.positional_embedding v0.seq x.seq).headD []).length =
        (dec.token_embedding x).feat := by
      obtain ⟨row, hmem, hrow⟩ := @posSlice_head_mem dec.positional_embedding
        v0.seq x.seq (by rw [hg.hpes]; omega) hL
      rw [hrow, hg.hrows row hmem, hef]
    obtain ⟨xE, hE, hEb, hEs, hEf⟩ := addPos_ok hmlen hmhead
    -- the first self-attention save appends, and torch.cat rejects the
    -- disagreeing batch dimensions
    have hosq : (b0.attn.key (b0.attn_ln xE)).seq = x.seq := by
      rw [(hgb.hattn.hk (b0.attn_ln xE)).2.1, (hgb.hln xE).2.1, hEs, hes]
    have hob : (b0.attn.key (b0.attn_ln xE)).batch = x.batch := by
      rw [(hgb.hattn.hk (b0.attn_ln xE)).1, (hgb.hln xE).1, hEb, heb]
    have hsv : save_to_cache pes c ("k_" ++ (toString 0 ++ "a"))
        (b0.attn.key (b0.attn_ln xE)) = .error .shapeMismatch := by
      refine save_cat_error htk (by omega) ?_
      intro ⟨hb, _⟩
      rw [hob] at hb
      exact hbne hb
    have hattn : attention_forward pes b0.attn (b0.attn_ln xE) none dec.mask
        (some c) (toString 0 ++ "a") = .error .shapeMismatch := by
      simp [attention_forward, hsv, exceptBind_err]
    have hblock : block_forward pes b0 xE (some xaT) dec.mask (some c) (toString 0) =
        .error .shapeMismatch := by
      simp [block_forward, hattn, exceptBind_err]
    have hrun : run_blocks pes dec.blocks.enum xE xaT dec.mask (some c) =
        .error .shapeMismatch := by
      rw [hbl]
      show run_blocks pes ((0, b0) :: List.enumFrom 1 bt) xE xaT dec.mask (some c) = _
      simp [run_blocks, hblock, exceptBind_err]
    have hoff : (match (some c : Option KVCache) with
        | some ((_, v) :: _) => v.seq
        | _ => 0) = v0.seq := by
      rw [hc]
    simp [decoder_forward, hoff, hE, hrun, exceptBind_ok, exceptBind_err, exceptMap_err]
  · intro x hL hpes
    obtain ⟨heb, hes, hef⟩ := hg.htok x
    have hmlen : (posSlice dec.positional_embedding 0 x.seq).length =
        (dec.token_embedding x).seq := by
      rw [hes, posSlice_len]
      rw [hg.hpes]
      omega
    have hmhead : ((posSlice dec.positional_embedding 0 x.seq).headD []).length =
        (dec.token_embedding x).feat := by
      obtain ⟨row, hmem, hrow⟩ := @posSlice_head_mem dec.positional_embedding
        0 x.seq (by rw [hg.hpes]; omega) hL
      rw [hrow, hg.hrows row hmem, hef]
    obtain ⟨xE, hE, _, _, _⟩ := addPos_ok hmlen hmhead
    simp [decoder_forward, hE, exceptBind_ok, exceptBind_err, exceptMap_err]

/-- Witness for C6: on the concrete one-block decoder, a second step whose
tokens have batch size 2 against a batch-1 cache errors with shapeMismatch,
and a first step with no encoder features errors with missingFeatures. -/
theorem C6_step_error_conditions_witness :
    decoder_forward 4 decW { batch := 2, seq := 1, data := [0, 0] } (some xaTW)
      (some [(selfK 0, { batch := 1, seq := 1, feat := 1, data := [0] }),
        (selfV 0, { batch := 1, seq := 1, feat := 1, data := [0] })]) =
      .error .shapeMismatch ∧
    decoder_forward 4 decW { batch := 1, seq := 1, data := [0] } none (some []) =
      .error .missingFeatures := by
  constructor
  · exact (C6_step_error_conditions 4 1 decW decW_good).1
      { batch := 2, seq := 1, data := [0, 0] } xaTW _
      (selfK 0) { batch := 1, seq := 1, feat := 1, data := [0] }
      { batch := 1, seq := 1, feat := 1, data := [0] }
      (by simp [decW]) rfl (by decide) (by decide) (by decide) (by decide)
  · exact (C6_step_error_conditions 4 1 decW decW_good).2
      { batch := 1, seq := 1, data := [0] } (by decide) (by decide)

/-- C2 (code bug): the cross-attention slots are NOT computed exactly once.
The source reads `kv_cache.get(f'k_idx', save_to_cache(kv_cache, f'k_idx',
attention_module.key(xa)))`, and Python evaluates the dict.get default
argument eagerly, so the projection of the features supplied to the current
call is recomputed and stored into the slot on every call — contradicting
the code's own comment ("for cross-attention, calculate keys and values once
and reuse in subsequent calls").  Concretely: after a first call caches the
projection of xa1, a second call that supplies xa2 overwrites the slot with
the projection of xa2, a different tensor. -/
theorem C2_cross_slot_recomputed_every_call :
    ((attention_forward 2 amW ⟨1, 1, 1, [0]⟩ (some ⟨1, 3, 1, [1, 2, 3]⟩) none
      (some []) "0c").toOption.bind (fun r => r.2.bind (fun c => dictGet c "k_0c")))
      = some ⟨1, 3, 1, [1, 2, 3]⟩ ∧
    ((attention_forward 2 amW ⟨1, 1, 1, [0]⟩ (some ⟨1, 3, 1, [4, 5, 6]⟩) none
      (some [("k_0c", ⟨1, 3, 1, [1, 2, 3]⟩), ("v_0c", ⟨1, 3, 1, [1, 2, 3]⟩)])
      "0c").toOption.bind (fun r => r.2.bind (fun c => dictGet c "k_0c")))
      = some ⟨1, 3, 1, [4, 5, 6]⟩ ∧
    (⟨1, 3, 1, [4, 5, 6]⟩ : Tensor) ≠ ⟨1, 3, 1, [1, 2, 3]⟩ := by
  decide

/-- C3 counterexample: the claim says a slot whose position-length already
equals the context bound (448) is REPLACED by the new value verbatim; the
code instead tests the NEW value's length, so a slot of length 448 receiving
a 1-position value is appended to (length 449), not replaced. -/
theorem C3_counterexample_full_slot_still_appends :
    save_to_cache 448 [("k_0a", ⟨1, 448, 1, []⟩)] "k_0a" ⟨1, 1, 1, [0]⟩ =
      .ok ([("k_0a", ⟨1, 449, 1, [0]⟩)], ⟨1, 449, 1, [0]⟩) ∧
    (⟨1, 449, 1, [0]⟩ : Tensor) ≠ ⟨1, 1, 1, [0]⟩ :=
  ⟨by rfl, by decide⟩

/-- C3 (amended): the new value replaces the slot verbatim exactly when the
slot is absent or the NEW value's sequence-position length exceeds the
context bound; otherwise (slot present, new length within the bound) the new
value is appended to the existing tensor along the sequence-position axis. -/
theorem C3_amended_store_policy (pes : Nat) (cache : KVCache) (m : String) (o : Tensor) :
    (dictGet cache m = none → save_to_cache pes cache m o = .ok (dictSet cache m o, o)) ∧
    (∀ old, dictGet cache m = some old → pes < o.seq →
      save_to_cache pes cache m o = .ok (dictSet cache m o, o)) ∧
    (∀ old, dictGet cache m = some old → o.seq ≤ pes →
      old.batch = o.batch → old.feat = o.feat →
      ∃ merged, save_to_cache pes cache m o = .ok (dictSet cache m merged, merged) ∧
        merged.seq = old.seq + o.seq ∧ merged.batch = o.batch ∧ merged.feat = o.feat) := by
  refine ⟨fun h => save_absent pes o h, fun old _ hb => save_big hb,
    fun old h hs hb hf => ?_⟩
  obtain ⟨merged, heq, hb1, hs1, hf1⟩ := save_append h hs hb hf
  exact ⟨merged, heq, hs1, hb1, hf1⟩

/-- Witness for the amended C3: absent slot stored as-is, over-long value
replaces, short value appends (2 + 1 = 3 positions). -/
theorem C3_amended_store_policy_witness :
    save_to_cache 2 [] "m" ⟨1, 1, 1, [5]⟩ =
      .ok ([("m", ⟨1, 1, 1, [5]⟩)], ⟨1, 1, 1, [5]⟩) ∧
    save_to_cache 2 [("m", ⟨1, 2, 1, [5, 6]⟩)] "m" ⟨1, 3, 1, [7, 8, 9]⟩ =
      .ok ([("m", ⟨1, 3, 1, [7, 8, 9]⟩)], ⟨1, 3, 1, [7, 8, 9]⟩) ∧
    ∃ merged, save_to_cache 2 [("m", ⟨1, 2, 1, [5, 6]⟩)] "m" ⟨1, 1, 1, [7]⟩ =
      .ok ([("m", merged)], merged) ∧ merged.seq = 3 := by
  refine ⟨(C3_amended_store_policy 2 [] "m" ⟨1, 1, 1, [5]⟩).1 rfl,
    (C3_amended_store_policy 2 [("m", ⟨1, 2, 1, [5, 6]⟩)] "m" ⟨1, 3, 1, [7, 8, 9]⟩).2.1
      ⟨1, 2, 1, [5, 6]⟩ rfl (by decide), ?_⟩
  obtain ⟨merged, heq, hs, _, _⟩ :=
    (C3_amended_store_policy 2 [("m", ⟨1, 2, 1, [5, 6]⟩)] "m" ⟨1, 1, 1, [7]⟩).2.2
      ⟨1, 2, 1, [5, 6]⟩ rfl (by decide) rfl rfl
  exact ⟨merged, heq, by simpa using hs⟩

/-- C9: cleanup_caching yields the empty cache that a fresh
OpenVINOInference starts with, and a subsequent write to the post-reset
cache yields a cache built from the empty dict alone — it is independent of
the wrapper's pre-reset state, so a retained pre-reset cache value shares no
slot with it and is left unchanged by such writes. -/
theorem C9_reset_produces_fresh_empty_cache (inf : OpenVINOInference)
    (m : String) (t : Tensor) :
    (cleanup_caching inf).kv_cache = init_kv_cache ∧
    dictSet (cleanup_caching inf).kv_cache m t = [(m, t)] ∧
    dictSet (cleanup_caching inf).kv_cache m t = dictSet init_kv_cache m t :=
  ⟨rfl, rfl, rfl⟩

theorem linspace_length (a b : ℚ) (n : Nat) : (linspace a b n).length = n := by
  unfold linspace
  split_ifs with h1 h2
  · simp [h1]
  · simp [h2]
  · rw [List.length_map, List.length_range]

/-- C10: resampling at equal source and destination rates returns the input
array unchanged (same dtype, same samples); at differing rates the result is
float32 with int((len / src_rate) * dst_rate) samples. -/
theorem C10_resample_identity_and_length (audio : NPArray) (src dst : ℚ) :
    resample audio src src = audio ∧
    (src ≠ dst →
      (resample audio src dst).dtype = DType.float32 ∧
      (resample audio src dst).samples.length =
        (((audio.samples.length : ℚ) / src) * dst).floor.toNat) := by
  refine ⟨by simp [resample], fun h => ⟨by simp [resample, h], ?_⟩⟩
  simp [resample, h, linspace_length]

/-- Witness for C10: 4 samples resampled from rate 2 to rate 4 give a
float32 array of int((4 / 2) * 4) = 8 samples; equal rates return the input
int16 array untouched. -/
theorem C10_resample_witness :
    resample ⟨DType.int16, [1, 2, 3, 4]⟩ 2 2 = ⟨DType.int16, [1, 2, 3, 4]⟩ ∧
    (resample ⟨DType.int16, [1, 2, 3, 4]⟩ 2 4).dtype = DType.float32 ∧
    (resample ⟨DType.int16, [1, 2, 3, 4]⟩ 2 4).samples.length = 8 := by
  obtain ⟨h1, h2⟩ := C10_resample_identity_and_length ⟨DType.int16, [1, 2, 3, 4]⟩ 2 4
  obtain ⟨h3, h4⟩ := h2 (by norm_num)
  refine ⟨h1, h3, ?_⟩
  rw [h4]
  have h5 : (((([1, 2, 3, 4] : List ℚ).length : ℕ) : ℚ)) / 2 * 4 = 8 := by norm_num
  simp only [NPArray.samples] at h5 ⊢
  rw [h5]
  have h6 : Rat.floor 8 = 8 := by
    show ⌊(8 : ℚ)⌋ = 8
    norm_num
  rw [h6]
  rfl

/-- Characterization of the init_past_inputs fold: the two reserved names
are never written, every other listed name ends up holding the zero
placeholder, and unlisted names keep their previous binding. -/
theorem init_fold_char (b0 f0 : Nat) :
    ∀ (names : List String) (fd : KVCache),
    (∀ name, name ∉ names →
      dictGet (names.foldl (fun fd name =>
        if name = "tokens" ∨ name = "audio_features" then fd
        else dictSet fd name (zerosT b0 0 f0)) fd) name = dictGet fd name) ∧
    (∀ name, (name = "tokens" ∨ name = "audio_features") →
      dictGet (names.foldl (fun fd name =>
        if name = "tokens" ∨ name = "audio_features" then fd
        else dictSet fd name (zerosT b0 0 f0)) fd) name = dictGet fd name) ∧
    (∀ name ∈ names, name ≠ "tokens" → name ≠ "audio_features" →
      dictGet (names.foldl (fun fd name =>
        if name = "tokens" ∨ name = "audio_features" then fd
        else dictSet fd name (zerosT b0 0 f0)) fd) name = some (zerosT b0 0 f0)) := by
  intro names
  induction names with
  | nil => exact fun _ => ⟨fun _ _ => rfl, fun _ _ => rfl, by simp⟩
  | cons n ns ih =>
      intro fd
      by_cases hres : n = "tokens" ∨ n = "audio_features"
      · refine ⟨?_, ?_, ?_⟩
        · intro name hname
          have h1 : name ∉ ns := fun h => hname (List.mem_cons_of_mem _ h)
          simp only [List.foldl_cons, if_pos hres]
          exact (ih fd).1 name h1
        · intro name hname
          simp only [List.foldl_cons, if_pos hres]
          exact (ih fd).2.1 name hname
        · intro name hmem h1 h2
          rcases List.mem_cons.mp hmem with rfl | hmem2
          · rcases hres with h | h
            · exact absurd h h1
            · exact absurd h h2
          · simp only [List.foldl_cons, if_pos hres]
            exact (ih fd).2.2 name hmem2 h1 h2
      · refine ⟨?_, ?_, ?_⟩
        · intro name hname
          have h1 : name ∉ ns := fun h => hname (List.mem_cons_of_mem _ h)
          have h2 : name ≠ n := fun h => hname (h ▸ List.mem_cons_self _ _)
          simp only [List.foldl_cons, if_neg hres]
          rw [(ih (dictSet fd n (zerosT b0 0 f0))).1 name h1,
            dictGet_dictSet_ne _ _ h2]
        · intro name hname
          have h2 : name ≠ n := by
            intro h
            exact hres (h ▸ hname)
          simp only [List.foldl_cons, if_neg hres]
          rw [(ih (dictSet fd n (zerosT b0 0 f0))).2.1 name hname,
            dictGet_dictSet_ne _ _ h2]
        · intro name hmem h1 h2
          rcases List.mem_cons.mp hmem with rfl | hmem2
          · by_cases hns : name ∈ ns
            · simp only [List.foldl_cons, if_neg hres]
              exact (ih (dictSet fd name (zerosT b0 0 f0))).2.2 name hns h1 h2
            · simp only [List.foldl_cons, if_neg hres]
              rw [(ih (dictSet fd name (zerosT b0 0 f0))).1 name hns,
                dictGet_dictSet_self]
          · simp only [List.foldl_cons, if_neg hres]
            exact (ih (dictSet fd n (zerosT b0 0 f0))).2.2 name hmem2 h1 h2

/-- C7: on the first step (empty cache) the engine adapter materializes
every declared cache input with a zero-length placeholder of shape
(batch, 0, feature-dim), where the batch comes from the tokens entry's first
axis and the feature dimension from the encoder features' last axis, while
the tokens and audio_features entries are left exactly as supplied. -/
theorem C7_first_step_placeholders (input_names : List String) (xT xaT : Tensor) :
    ∃ feed', init_past_inputs input_names
        [("tokens", xT), ("audio_features", xaT)] = .ok feed' ∧
      dictGet feed' "tokens" = some xT ∧
      dictGet feed' "audio_features" = some xaT ∧
      ∀ name ∈ input_names, name ≠ "tokens" → name ≠ "audio_features" →
        dictGet feed' name = some (zerosT xT.batch 0 xaT.feat) := by
  have htk : dictGet [("tokens", xT), ("audio_features", xaT)] "tokens" = some xT := by
    simp [dictGet]
  have haf : dictGet [("tokens", xT), ("audio_features", xaT)] "audio_features" =
      some xaT := by
    simp [dictGet]
  obtain ⟨hframe, hres, hset⟩ := init_fold_char xT.batch xaT.feat input_names
    [("tokens", xT), ("audio_features", xaT)]
  refine ⟨_, ?_, ?_, ?_, hset⟩
  · simp only [init_past_inputs, htk, haf]
  · rw [hres "tokens" (Or.inl rfl), htk]
  · rw [hres "audio_features" (Or.inr rfl), haf]

/-- Witness for C7: three declared inputs, one of them a cache slot, get the
(2, 0, 768) placeholder while tokens and features pass through. -/
theorem C7_first_step_placeholders_witness :
    ∃ feed', init_past_inputs ["tokens", "audio_features", "in_k_0a"]
        [("tokens", ⟨2, 3, 1, []⟩), ("audio_features", ⟨2, 1500, 768, []⟩)] =
        .ok feed' ∧
      dictGet feed' "tokens" = some ⟨2, 3, 1, []⟩ ∧
      dictGet feed' "audio_features" = some ⟨2, 1500, 768, []⟩ ∧
      dictGet feed' "in_k_0a" = some (zerosT 2 0 768) := by
  obtain ⟨feed', h1, h2, h3, h4⟩ :=
    C7_first_step_placeholders ["tokens", "audio_features", "in_k_0a"]
      ⟨2, 3, 1, []⟩ ⟨2, 1500, 768, []⟩
  exact ⟨feed', h1, h2, h3, h4 "in_k_0a" (by decide) (by decide) (by decide)⟩

theorem length_batchSlice {v : Tensor}
    (hwf : v.data.length = v.batch * (v.seq * v.feat)) {i : Nat} (hi : i < v.batch) :
    (batchSlice v i).length = v.seq * v.feat := by
  simp only [batchSlice, List.length_take, List.length_drop, hwf]
  have h1 : i + 1 ≤ v.batch := hi
  have h2 : (i + 1) * (v.seq * v.feat) ≤ v.batch * (v.seq * v.feat) :=
    Nat.mul_le_mul_right _ h1
  have h3 : (i + 1) * (v.seq * v.feat) = i * (v.seq * v.feat) + v.seq * v.feat := by
    ring
  omega

theorem flatten_chunk : ∀ (L : List (List ℚ)) (n j : Nat),
    (∀ l ∈ L, l.length = n) → j < L.length →
    (L.flatten.drop (j * n)).take n = L.getD j [] := by
  intro L
  induction L with
  | nil =>
      intro n j _ h
      simp at h
  | cons hd tl ih =>
      intro n j hall hj
      have hh : hd.length = n := hall hd (List.mem_cons_self _ _)
      cases j with
      | zero =>
          simp only [Nat.zero_mul, List.drop_zero, List.flatten_cons]
          rw [← hh, List.take_left]
          rfl
      | succ j =>
          simp only [List.flatten_cons]
          have hd1 : (hd ++ tl.flatten).drop ((j + 1) * n) = tl.flatten.drop (j * n) := by
            rw [show (j + 1) * n = hd.length + j * n from by rw [hh]; ring,
              List.drop_append]
          rw [hd1, ih n j (fun l hl => hall l (List.mem_cons_of_mem _ hl))
            (by simpa using hj)]
          rfl

theorem getD_map_lt {l : List Nat} {f : Nat → List ℚ} {j : Nat} (h : j < l.length) :
    (l.map f).getD j [] = f (l.getD j 0) := by
  rw [List.getD_eq_getElem?_getD, List.getElem?_map, List.getD_eq_getElem?_getD,
    List.getElem?_eq_getElem h]
  simp

/-- torch gather along the batch axis: valid indices on a well-formed tensor
give a tensor whose batch j is the input's batch src[j], with the other
dimensions untouched. -/
theorem tensorIndex_char {v : Tensor} {src : List Nat}
    (hvalid : ∀ i ∈ src, i < v.batch)
    (hwf : v.data.length = v.batch * (v.seq * v.feat)) :
    ∃ v', tensorIndex v src = .ok v' ∧ v'.batch = src.length ∧ v'.seq = v.seq ∧
      v'.feat = v.feat ∧
      ∀ j < src.length, batchSlice v' j = batchSlice v (src.getD j 0) := by
  have hall : src.all (· < v.batch) = true := by
    simp only [List.all_eq_true, decide_eq_true_eq]
    exact hvalid
  simp only [tensorIndex]
  rw [if_pos hall]
  refine ⟨_, rfl, rfl, rfl, rfl, ?_⟩
  · intro j hj
    show ((((src.map (batchSlice v)).flatten).drop (j * (v.seq * v.feat))).take
      (v.seq * v.feat)) = batchSlice v (src.getD j 0)
    rw [flatten_chunk (src.map (batchSlice v)) (v.seq * v.feat) j ?_ (by simpa using hj)]
    · exact getD_map_lt hj
    · intro l hl
      obtain ⟨i, hi, rfl⟩ := List.mem_map.mp hl
      exact length_batchSlice hwf (hvalid i hi)

/-- C4: rearrange_kv_cache with valid batch indices succeeds, keeps exactly
the slot identifiers of the input cache (same keys, same order), and gives
every slot a tensor whose batch size is the length of selected_indices and
whose batch entry j equals the input slot's batch entry selected_indices[j];
the sequence and feature dimensions are untouched. -/
theorem C4_rearrange_gathers_batch (cache : KVCache) (src : List Nat)
    (hvalid : ∀ kv ∈ cache, ∀ i ∈ src, i < kv.2.batch)
    (hwf : ∀ kv ∈ cache, kv.2.data.length = kv.2.batch * (kv.2.seq * kv.2.feat)) :
    ∃ c', rearrange_kv_cache cache src = .ok c' ∧
      c'.map Prod.fst = cache.map Prod.fst ∧
      List.Forall₂ (fun kv kv' : String × Tensor =>
        kv'.1 = kv.1 ∧ kv'.2.batch = src.length ∧ kv'.2.seq = kv.2.seq ∧
        kv'.2.feat = kv.2.feat ∧
        ∀ j < src.length, batchSlice kv'.2 j = batchSlice kv.2 (src.getD j 0))
        cache c' := by
  induction cache with
  | nil => exact ⟨[], rfl, rfl, List.Forall₂.nil⟩
  | cons kv rest ih =>
      obtain ⟨k, v⟩ := kv
      obtain ⟨v', hv, hvb, hvs, hvf, hvsl⟩ :=
        @tensorIndex_char v src
          (hvalid (k, v) (List.mem_cons_self _ _))
          (hwf (k, v) (List.mem_cons_self _ _))
      obtain ⟨c', hc, hkeys, hfa⟩ :=
        ih (fun p hp => hvalid p (List.mem_cons_of_mem _ hp))
          (fun p hp => hwf p (List.mem_cons_of_mem _ hp))
      refine ⟨(k, v') :: c', ?_, ?_, ?_⟩
      · simp [rearrange_kv_cache, hv, hc, exceptBind_ok, exceptMap_ok]
      · simp [hkeys]
      · exact List.Forall₂.cons ⟨rfl, hvb, hvs, hvf, hvsl⟩ hfa

/-- Witness for C4, the spec's scenario: a batch-5 slot re-indexed with
[2, 2, 0] becomes a batch-3 slot whose entries are the old entries 2, 2, 0. -/
theorem C4_rearrange_gathers_batch_witness :
    (∃ c', rearrange_kv_cache [("k_0a", ⟨5, 1, 1, [10, 11, 12, 13, 14]⟩)] [2, 2, 0] =
        .ok c' ∧
      c'.map Prod.fst = [("k_0a", (⟨5, 1, 1, [10, 11, 12, 13, 14]⟩ : Tensor))].map
        Prod.fst ∧
      List.Forall₂ (fun kv kv' : String × Tensor =>
        kv'.1 = kv.1 ∧ kv'.2.batch = ([2, 2, 0] : List Nat).length ∧
        kv'.2.seq = kv.2.seq ∧ kv'.2.feat = kv.2.feat ∧
        ∀ j < ([2, 2, 0] : List Nat).length,
          batchSlice kv'.2 j = batchSlice kv.2 (([2, 2, 0] : List Nat).getD j 0))
        [("k_0a", ⟨5, 1, 1, [10, 11, 12, 13, 14]⟩)] c') ∧
    rearrange_kv_cache [("k_0a", ⟨5, 1, 1, [10, 11, 12, 13, 14]⟩)] [2, 2, 0] =
      .ok [("k_0a", ⟨3, 1, 1, [12, 12, 10]⟩)] := by
  constructor
  · refine C4_rearrange_gathers_batch [("k_0a", ⟨5, 1, 1, [10, 11, 12, 13, 14]⟩)]
      [2, 2, 0] ?_ ?_
    · intro kv hkv i hi
      simp only [List.mem_singleton] at hkv
      subst hkv
      simp only [List.mem_cons, List.not_mem_nil, or_false] at hi
      rcases hi with rfl | rfl | rfl <;> norm_num
    · intro kv hkv
      simp only [List.mem_singleton] at hkv
      subst hkv
      rfl
  · rfl

theorem in_prefix_inj {a b : String} (h : ("in_" ++ a : String) = "in_" ++ b) :
    a = b := append_left_cancel_2 h

theorem outName_ne_logits (s : String) : outName s ≠ "logits" := by
  intro h
  have h2 := congrArg String.data h
  simp [outName, String.data_append] at h2

/-- Unlisted names pass through the preprocess fold untouched. -/
theorem preprocess_fold_frame (input_names : List String) :
    ∀ (entries : List (String × Tensor)) (fd : KVCache) (name : String),
    (∀ kv ∈ entries, name ≠ "in_" ++ kv.1) →
    dictGet (entries.foldl (fun fd kv =>
      if ("in_" ++ kv.1) ∈ input_names then dictSet fd ("in_" ++ kv.1) kv.2 else fd) fd)
      name = dictGet fd name := by
  intro entries
  induction entries with
  | nil => intro fd name _; rfl
  | cons kv rest ih =>
      intro fd name hne
      simp only [List.foldl_cons]
      by_cases hmem : ("in_" ++ kv.1) ∈ input_names
      · rw [if_pos hmem, ih _ name (fun p hp => hne p (List.mem_cons_of_mem _ hp)),
          dictGet_dictSet_ne _ _ (hne kv (List.mem_cons_self _ _))]
      · rw [if_neg hmem]
        exact ih _ name (fun p hp => hne p (List.mem_cons_of_mem _ hp))

/-- A declared slot's tensor is fed under the name in_<slot identifier>. -/
theorem preprocess_fold_mem (input_names : List String) :
    ∀ (entries : List (String × Tensor)) (fd : KVCache),
    (entries.map Prod.fst).Nodup →
    ∀ kv ∈ entries, ("in_" ++ kv.1) ∈ input_names →
    dictGet (entries.foldl (fun fd kv =>
      if ("in_" ++ kv.1) ∈ input_names then dictSet fd ("in_" ++ kv.1) kv.2 else fd) fd)
      ("in_" ++ kv.1) = some kv.2 := by
  intro entries
  induction entries with
  | nil => intro fd _ kv hkv; simp at hkv
  | cons hd rest ih =>
      intro fd hnd kv hkv hdecl
      simp only [List.map_cons, List.nodup_cons] at hnd
      rcases List.mem_cons.mp hkv with rfl | hkv2
      · simp only [List.foldl_cons, if_pos hdecl]
        rw [preprocess_fold_frame input_names rest _ _ ?_, dictGet_dictSet_self]
        intro p hp h
        exact hnd.1 (in_prefix_inj h ▸ List.mem_map_of_mem Prod.fst hp)
      · simp only [List.foldl_cons]
        by_cases hmem : ("in_" ++ hd.1) ∈ input_names
        · rw [if_pos hmem]
          exact ih _ hnd.2 kv hkv2 hdecl
        · rw [if_neg hmem]
          exact ih _ hnd.2 kv hkv2 hdecl

/-- Characterization of the postprocess fold over slot outputs whose names
demap back to their own slot identifiers: the logits accumulator is kept,
unrelated names pass through, and with pairwise-distinct slot identifiers
every slot's tensor lands under its identifier. -/
theorem post_fold_char :
    ∀ (slots : List (String × Tensor)) (acc : Option Tensor × KVCache),
    (∀ kv ∈ slots, pyReplace (outName kv.1) "out_" "" = kv.1) →
    ((slots.map (fun p => (outName p.1, p.2))).foldl postStep acc).1 = acc.1 ∧
    (∀ name, (∀ kv ∈ slots, name ≠ kv.1) →
      dictGet ((slots.map (fun p => (outName p.1, p.2))).foldl postStep acc).2 name =
        dictGet acc.2 name) ∧
    ((slots.map Prod.fst).Nodup →
      ∀ kv ∈ slots,
        dictGet ((slots.map (fun p => (outName p.1, p.2))).foldl postStep acc).2 kv.1 =
          some kv.2) := by
  intro slots
  induction slots with
  | nil => exact fun acc _ => ⟨rfl, fun _ _ => rfl, fun _ kv hkv => by simp at hkv⟩
  | cons hd rest ih =>
      intro acc hrep
      have hstep : postStep acc (outName hd.1, hd.2) =
          (acc.1, dictSet acc.2 hd.1 hd.2) := by
        simp only [postStep, if_neg (outName_ne_logits hd.1)]
        rw [hrep hd (List.mem_cons_self _ _)]
      refine ⟨?_, ?_, ?_⟩
      · simp only [List.map_cons, List.foldl_cons, hstep]
        exact (ih _ (fun kv hkv => hrep kv (List.mem_cons_of_mem _ hkv))).1
      · intro name hname
        simp only [List.map_cons, List.foldl_cons, hstep]
        rw [(ih _ (fun kv hkv => hrep kv (List.mem_cons_of_mem _ hkv))).2.1 name
          (fun kv hkv => hname kv (List.mem_cons_of_mem _ hkv))]
        exact dictGet_dictSet_ne _ _ (hname hd (List.mem_cons_self _ _))
      · intro hnd kv hkv
        simp only [List.map_cons, List.nodup_cons] at hnd
        rcases List.mem_cons.mp hkv with rfl | hkv2
        · simp only [List.map_cons, List.foldl_cons, hstep]
          rw [(ih _ (fun p hp => hrep p (List.mem_cons_of_mem _ hp))).2.1 kv.1 ?_,
            dictGet_dictSet_self]
          intro p hp h
          exact hnd.1 (h ▸ List.mem_map_of_mem Prod.fst hp)
        · simp only [List.map_cons, List.foldl_cons, hstep]
          exact (ih _ (fun p hp => hrep p (List.mem_cons_of_mem _ hp))).2.2 hnd.2 kv hkv2

/-- C8: the slot-to-wire mapping is the exact contract in both directions.
For a later-step call (non-empty cache) the adapter feeds every slot whose
input is declared under the name in_<slot>; demultiplexing engine outputs
named out_<slot> plus a port named logits recovers the logits and re-keys
every slot under its own identifier; and stripping "out_" after prepending
"out_" is the identity on every slot name used by the export. -/
theorem C8_wire_name_contract (input_names : List String) (feed : KVCache)
    (cache : KVCache) (hcne : cache ≠ []) (hnd : (cache.map Prod.fst).Nodup)
    (l : Tensor) (slots : List (String × Tensor))
    (hsnd : (slots.map Prod.fst).Nodup)
    (hsin : ∀ kv ∈ slots, kv.1 ∈ exportSlotNames) :
    (∃ feed', preprocess_kv_cache_inputs input_names feed (some cache) = .ok feed' ∧
      ∀ kv ∈ cache, ("in_" ++ kv.1) ∈ input_names →
        dictGet feed' ("in_" ++ kv.1) = some kv.2) ∧
    ((postprocess_outputs
        (("logits", l) :: slots.map (fun p => (outName p.1, p.2)))).1 = some l ∧
      ∀ kv ∈ slots,
        dictGet (postprocess_outputs
          (("logits", l) :: slots.map (fun p => (outName p.1, p.2)))).2 kv.1 =
          some kv.2) ∧
    (∀ s ∈ exportSlotNames, pyReplace (outName s) "out_" "" = s) := by
  have htrip : ∀ s ∈ exportSlotNames, pyReplace (outName s) "out_" "" = s := by decide
  refine ⟨?_, ?_, htrip⟩
  · have hemp : cache.isEmpty = false := by
      cases cache with
      | nil => exact absurd rfl hcne
      | cons hd tl => rfl
    have heq : preprocess_kv_cache_inputs input_names feed (some cache) =
        .ok (cache.foldl (fun fd kv =>
          if ("in_" ++ kv.1) ∈ input_names then dictSet fd ("in_" ++ kv.1) kv.2
          else fd) feed) := by
      simp only [preprocess_kv_cache_inputs, Option.getD_some, hemp]
      rfl
    exact ⟨_, heq,
      fun kv hkv hdecl => preprocess_fold_mem input_names cache feed hnd kv hkv hdecl⟩
  · have hrep : ∀ kv ∈ slots, pyReplace (outName kv.1) "out_" "" = kv.1 :=
      fun kv hkv => htrip kv.1 (hsin kv hkv)
    have hfirst : postStep ((none : Option Tensor), ([] : KVCache)) ("logits", l) =
        (some l, []) := by
      simp [postStep]
    have hsplit : (("logits", l) :: slots.map (fun p => (outName p.1, p.2))).foldl
        postStep ((none : Option Tensor), ([] : KVCache)) =
        (slots.map (fun p => (outName p.1, p.2))).foldl postStep (some l, []) := by
      rw [List.foldl_cons, hfirst]
    constructor
    · show ((("logits", l) :: slots.map (fun p => (outName p.1, p.2))).foldl postStep
        (none, [])).1 = some l
      rw [hsplit, (post_fold_char slots (some l, []) hrep).1]
    · intro kv hkv
      show dictGet ((("logits", l) :: slots.map (fun p => (outName p.1, p.2))).foldl
        postStep (none, [])).2 kv.1 = some kv.2
      rw [hsplit]
      exact (post_fold_char slots (some l, []) hrep).2.2 hsnd kv hkv

/-- Witness for C8: a one-slot cache is fed under in_k_0a, the outputs
logits and out_k_0a demap to the logits and the k_0a slot, and the
round-trip identity holds on the 48 exported slot names. -/
theorem C8_wire_name_contract_witness :
    (∃ feed', preprocess_kv_cache_inputs ["tokens", "audio_features", "in_k_0a"]
        [("tokens", ⟨1, 1, 1, [0]⟩)] (some [("k_0a", ⟨1, 2, 1, [1, 2]⟩)]) = .ok feed' ∧
      ∀ kv ∈ [("k_0a", (⟨1, 2, 1, [1, 2]⟩ : Tensor))],
        ("in_" ++ kv.1) ∈ ["tokens", "audio_features", "in_k_0a"] →
        dictGet feed' ("in_" ++ kv.1) = some kv.2) ∧
    ((postprocess_outputs (("logits", ⟨1, 1, 1, [7]⟩) ::
        [("k_0a", (⟨1, 2, 1, [1, 2]⟩ : Tensor))].map (fun p => (outName p.1, p.2)))).1 =
      some ⟨1, 1, 1, [7]⟩ ∧
      ∀ kv ∈ [("k_0a", (⟨1, 2, 1, [1, 2]⟩ : Tensor))],
        dictGet (postprocess_outputs (("logits", ⟨1, 1, 1, [7]⟩) ::
          [("k_0a", (⟨1, 2, 1, [1, 2]⟩ : Tensor))].map
            (fun p => (outName p.1, p.2)))).2 kv.1 = some kv.2) ∧
    (∀ s ∈ exportSlotNames, pyReplace (outName s) "out_" "" = s) := by
  exact C8_wire_name_contract ["tokens", "audio_features", "in_k_0a"]
    [("tokens", ⟨1, 1, 1, [0]⟩)] [("k_0a", ⟨1, 2, 1, [1, 2]⟩)] (by decide) (by decide)
    ⟨1, 1, 1, [7]⟩ [("k_0a", ⟨1, 2, 1, [1, 2]⟩)] (by decide) (by decide)

end WhisperOV
